import Mathlib

/-!
Verification of the `multi-state-design` optimization core
(`src/optimization-amn/Optimizer.py`) against its design specification.

The Python code is shallowly embedded: Python strings become `List Char`
(a file line read by iteration carries its trailing newline), Python ints
become `ℤ`, Python floats become exact rationals `ℚ` (no arithmetic other
than parsing and exact division is performed on them by the embedded
code), fallible operations return `Except PyErr`, and numpy float cells
that can hold the results of division by zero become `NpVal` (`nan` for
0/0, `inf` for positive/0).  The `Model` class is imported by the
Optimizer from `model.py`, which is not part of the sources; it is
modelled from the specification where noted.
-/

namespace MSD

/-- Python exception classes raised by the embedded code.  In Python,
`KeyError` and `IndexError` are subclasses of `LookupError`. -/
inductive PyErr where
  | keyError
  | indexError
  | typeError
  | valueError
deriving DecidableEq, Repr

/-- A numpy float64 cell as used by this code: an exact numeric value,
or the result of a masked division by zero (`0/0 → nan`,
`positive/0 → inf`; numpy emits a RuntimeWarning but no exception). -/
inductive NpVal where
  | num (q : ℚ)
  | nan
  | inf
deriving DecidableEq, Repr

/-- A Python value appearing as a hyperparameter argument of
`calcParamsID` / `getModelByParams`: an int, a float (modelled as an
exact rational), or `None`. -/
inductive PyParam where
  | pint (n : ℤ)
  | pfloat (q : ℚ)
  | pnone
deriving DecidableEq, Repr

/-! ## Python `str()` on parameter values

`calcParamsID` concatenates `str(param)` texts with single spaces.  What
the proofs rely on — and what Python's `str` on `int`, `float`, `None`
guarantees — is that the rendering is determined by the value alone (not
by the textual formatting the value was parsed from), is injective
(`repr` of a float is the shortest round-tripping literal), and never
contains a space.  We model `str` by a rendering with exactly these
properties: decimal digits for naturals, a leading `-` for negative
numbers, and `numerator.denominator` (reduced form) for floats. -/

/-- The decimal digit characters. -/
def digitChar : ℕ → Char
  | 0 => '0'
  | 1 => '1'
  | 2 => '2'
  | 3 => '3'
  | 4 => '4'
  | 5 => '5'
  | 6 => '6'
  | 7 => '7'
  | 8 => '8'
  | 9 => '9'
  | _ => '*'

/-- Fuel-driven digit extraction (structural recursion on the fuel, so
that concrete renderings reduce inside the kernel); `natStrAux fuel n`
is the decimal rendering of `n > 0` whenever `n ≤ fuel`. -/
def natStrAux : ℕ → ℕ → List Char
  | _, 0 => []
  | 0, _ + 1 => []
  | fuel + 1, n + 1 => natStrAux fuel ((n + 1) / 10) ++ [digitChar ((n + 1) % 10)]

/-- Decimal rendering of a natural number, most significant digit
first. -/
def natStr (n : ℕ) : List Char :=
  if n = 0 then ['0'] else natStrAux n n

/-- Python `str` of an int. -/
def intStr (n : ℤ) : List Char :=
  if n < 0 then '-' :: natStr n.natAbs else natStr n.natAbs

/-- Value-determined, injective, space-free rendering of a float value
(see the section comment): sign, numerator, `'.'`, denominator of the
reduced fraction. -/
def ratStr (q : ℚ) : List Char :=
  (if q < 0 then ['-'] else []) ++ natStr q.num.natAbs ++ '.' :: natStr q.den

/-- Character list underlying `pyStr`. -/
def pyChars : PyParam → List Char
  | .pint n => intStr n
  | .pfloat q => ratStr q
  | .pnone => ['N', 'o', 'n', 'e']

/-- Python `str()` on a hyperparameter value (`str(None) = "None"`). -/
def pyStr (p : PyParam) : String := ⟨pyChars p⟩

/-- `Optimizer.calcParamsID` (Optimizer.py:435-449):
`return str(param1) + " " + str(param2) + " " + str(param3)`. -/
def calcParamsID (param1 param2 param3 : PyParam) : String :=
  pyStr param1 ++ " " ++ pyStr param2 ++ " " ++ pyStr param3

/-! ## Python numeric literal parsing

`int(s)` and `float(s)` as used on the whitespace-free tab-separated
fields of the input tables.  Modelled for plain decimal literals
(optional sign, digits, optional fraction part, optional exponent);
Python additionally tolerates surrounding whitespace, `_` digit
separators and the `inf`/`nan` spellings, which never occur in these
tables and are omitted. -/

/-- Numeric value of a decimal digit character. -/
def digitVal : Char → Option ℕ :=
  fun c => if c.isDigit then some (c.toNat - 48) else none

/-- Accumulating decimal parse; fails on any non-digit. -/
def parseDigitsAux : ℕ → List Char → Option ℕ
  | acc, [] => some acc
  | acc, c :: cs =>
    match digitVal c with
    | some d => parseDigitsAux (acc * 10 + d) cs
    | none => none

/-- Parse a non-empty all-digit string. -/
def parseDigits (cs : List Char) : Option ℕ :=
  match cs with
  | [] => none
  | _ => parseDigitsAux 0 cs

/-- Python `int(s)`. -/
def pyInt (s : String) : Option ℤ :=
  match s.data with
  | '-' :: cs => (parseDigits cs).map (fun n => -(n : ℤ))
  | '+' :: cs => (parseDigits cs).map (fun n => (n : ℤ))
  | cs => (parseDigits cs).map (fun n => (n : ℤ))

/-- Mantissa of a float literal: `digits`, `digits.digits`, `digits.`
or `.digits`. -/
def parseMant (cs : List Char) : Option ℚ :=
  match cs.span (fun c => c != '.') with
  | (ip, []) => (parseDigits ip).map (fun n => (n : ℚ))
  | (ip, _ :: fp) =>
    if ip.isEmpty && fp.isEmpty then none
    else do
      let ipn ← if ip.isEmpty then some 0 else parseDigits ip
      let fpn ← if fp.isEmpty then some 0 else parseDigits fp
      some ((ipn : ℚ) + (fpn : ℚ) / (10 : ℚ) ^ fp.length)

/-- Exponent of a float literal: optionally signed digits. -/
def parseExp (cs : List Char) : Option ℤ :=
  match cs with
  | '-' :: ds => (parseDigits ds).map (fun n => -(n : ℤ))
  | '+' :: ds => (parseDigits ds).map (fun n => (n : ℤ))
  | ds => (parseDigits ds).map (fun n => (n : ℤ))

/-- Python `float(s)` for finite decimal literals. -/
def pyFloat (s : String) : Option ℚ :=
  let (sgn, body) :=
    match s.data with
    | '-' :: cs => (true, cs)
    | '+' :: cs => (false, cs)
    | cs => (false, cs)
  let (mant, erest) := body.span (fun c => c != 'e' && c != 'E')
  do
    let m ← parseMant mant
    let e ← match erest with
      | [] => some (0 : ℤ)
      | _ :: ecs => parseExp ecs
    some ((if sgn then -m else m) * (10 : ℚ) ^ e)

/-! ## Generic machinery for the embedded imperative loops -/

/-- Fold over a list in the `Except PyErr` monad; an uncaught exception
in a loop body aborts the whole loop. -/
def efold (f : σ → α → Except PyErr σ) : σ → List α → Except PyErr σ
  | s, [] => .ok s
  | s, a :: as =>
    match f s a with
    | .ok s' => efold f s' as
    | .error e => .error e

/-- `Option` access promoted to a Python exception (dict subscript →
`KeyError`, list subscript → `IndexError`, failed conversion →
`ValueError`). -/
def getOrErr (o : Option α) (e : PyErr) : Except PyErr α :=
  match o with
  | some a => .ok a
  | none => .error e

/-- Replace the `i`-th element of a list by `f` of itself (in-place
numpy element update); out-of-range indices never occur in the embedded
code. -/
def updAt : ℕ → (α → α) → List α → List α
  | _, _, [] => []
  | 0, f, a :: as => f a :: as
  | i + 1, f, a :: as => a :: updAt i f as

/-- A file's logical lines (without trailing newline) as seen by Python
line iteration, which yields each line with its `'\n'`. -/
def encodeLines (lines : List String) : List (List Char) :=
  lines.map (fun s => s.data ++ ['\n'])

/-! ## `Optimizer.readTargetFrequencies` (Optimizer.py:89-160)

Embedded for the `posPicker=None` call (the claims do not involve the
position-subset path). -/

/-- The `resToIndex` dictionary (Optimizer.py:100). -/
def resToIndex : Char → Option ℕ
  | 'A' => some 0
  | 'C' => some 1
  | 'D' => some 2
  | 'E' => some 3
  | 'F' => some 4
  | 'G' => some 5
  | 'H' => some 6
  | 'I' => some 7
  | 'K' => some 8
  | 'L' => some 9
  | 'M' => some 10
  | 'N' => some 11
  | 'P' => some 12
  | 'Q' => some 13
  | 'R' => some 14
  | 'S' => some 15
  | 'T' => some 16
  | 'V' => some 17
  | 'W' => some 18
  | 'Y' => some 19
  | _ => none

/-- The `indexToRes` dictionary (Optimizer.py:175 and 262). -/
def indexToRes : ℕ → String
  | 0 => "A"
  | 1 => "C"
  | 2 => "D"
  | 3 => "E"
  | 4 => "F"
  | 5 => "G"
  | 6 => "H"
  | 7 => "I"
  | 8 => "K"
  | 9 => "L"
  | 10 => "M"
  | 11 => "N"
  | 12 => "P"
  | 13 => "Q"
  | 14 => "R"
  | 15 => "S"
  | 16 => "T"
  | 17 => "V"
  | 18 => "W"
  | 19 => "Y"
  | _ => ""

/-- Optimizer.py:104-109: after skipping the first line, accumulate
`entry` from successive `readline()` results while they do not start
with `'>'`.  `readline()` at end of file returns `""`, whose `[0]`
subscript raises `IndexError`. -/
def scanEntry : List (List Char) → Except PyErr (List Char)
  | [] => .error .indexError
  | l :: rest =>
    if l.head? = some '>' then .ok []
    else (scanEntry rest).map (fun e => l ++ e)

/-- State of the entry-counting loop (Optimizer.py:120-138):
`targetFrequencies` count matrix, `nEntries`, and the pending
`thisEntry` text. -/
structure FState where
  counts : List (List ℕ)
  nEntries : List ℕ
  thisEntry : List Char
deriving DecidableEq, Repr

/-- Body of `for i in range(self.nPositions)` (Optimizer.py:127-134):
read `thisEntry[i]` (`IndexError` when the entry is too short); skip
`'-'`; on a canonical code bump the count and `nEntries`; a `KeyError`
from `resToIndex` is caught and the position skipped. -/
def flushStep (entry : List Char) (cn : List (List ℕ) × List ℕ) (i : ℕ) :
    Except PyErr (List (List ℕ) × List ℕ) :=
  match entry.get? i with
  | none => .error .indexError
  | some ch =>
    if ch = '-' then .ok cn
    else
      match resToIndex ch with
      | none => .ok cn
      | some j => .ok (updAt i (updAt j (· + 1)) cn.1, updAt i (· + 1) cn.2)

/-- Add one completed entry's residues to the counts. -/
def flushEntry (nPos : ℕ) (entry : List Char) (c : List (List ℕ)) (n : List ℕ) :
    Except PyErr (List (List ℕ) × List ℕ) :=
  efold (flushStep entry) (c, n) (List.range nPos)

/-- Body of `for line in infile` (Optimizer.py:122-138): a header line
flushes the pending entry (if any); any other line is appended to it. -/
def lineStep (nPos : ℕ) (st : FState) (l : List Char) : Except PyErr FState :=
  if l.head? = some '>' then
    if st.thisEntry = [] then .ok st
    else
      match flushEntry nPos st.thisEntry st.counts st.nEntries with
      | .ok cn => .ok ⟨cn.1, cn.2, []⟩
      | .error e => .error e
  else .ok ⟨st.counts, st.nEntries, st.thisEntry ++ l⟩

/-- The counting pass over the whole file (after `infile.seek(0)`),
starting from the `numpy.zeros` allocations of Optimizer.py:115 and
120. -/
def fastaCounts (nPos : ℕ) (ls : List (List Char)) :
    Except PyErr (List (List ℕ) × List ℕ) :=
  (efold (lineStep nPos) ⟨List.replicate nPos (List.replicate 20 0), List.replicate nPos 0, []⟩ ls).map
    (fun st => (st.counts, st.nEntries))

/-- numpy float64 division of a count by `nEntries[i]` (Optimizer.py:142):
division by zero is masked to `nan` (0/0) or `inf` (positive/0) with a
RuntimeWarning, never an exception. -/
def npDiv (a : ℕ) (b : ℕ) : NpVal :=
  if b = 0 then (if a = 0 then .nan else .inf) else .num ((a : ℚ) / b)

/-- Counts-to-frequencies normalization (Optimizer.py:140-142): each of
the `nPositions` rows of exactly 20 counts is divided elementwise by
that row's `nEntries` value. -/
def mkFreqs (counts : List (List ℕ)) (nEntries : List ℕ) : List (List NpVal) :=
  List.zipWith (fun row n => row.map (fun a => npDiv a n)) counts nEntries

/-- The counting state invariant: the matrices keep their allocated
dimensions and each position's count row sums to that position's
`nEntries` cell. -/
def CountsInv (nPos : ℕ) (counts : List (List ℕ)) (nEntries : List ℕ) : Prop :=
  counts.length = nPos ∧ nEntries.length = nPos ∧ (∀ row ∈ counts, row.length = 20) ∧
    ∀ k, (counts.getD k []).sum = nEntries.getD k 0

/-- Specification-side helper: the exact sum of a row of numpy cells,
defined only when every cell holds a finite numeric value. -/
def rationalSum? : List NpVal → Option ℚ
  | [] => some 0
  | .num q :: rest => (rationalSum? rest).map (fun s => q + s)
  | .nan :: _ => none
  | .inf :: _ => none

/-- `Optimizer.readTargetFrequencies` (Optimizer.py:89-160) on the
encoded file lines.  Line 110 sets `nPositions = len(entry) - 1`;
line 112 then evaluates `entry[-2]`, an `IndexError` when the entry is
shorter than 2 characters (for longer entries the comparison
`entry[-2] == 0` is a Python 3 cross-type comparison of a character
with the integer 0, always `False`, so its branch is dead).  The
counting pass then re-reads the whole file from the start
(`infile.seek(0)`). -/
def readTFAux (ls : List (List Char)) : Except PyErr (List (List NpVal)) :=
  match ls with
  | [] => .error .indexError
  | _ :: rest =>
    match scanEntry rest with
    | .error e => .error e
    | .ok entry =>
      if entry.length < 2 then .error .indexError
      else
        match fastaCounts (entry.length - 1) ls with
        | .error e => .error e
        | .ok cn => .ok (mkFreqs cn.1 cn.2)

/-- `Optimizer.readTargetFrequencies` on the file's logical lines. -/
def readTargetFrequencies (lines : List String) : Except PyErr (List (List NpVal)) :=
  readTFAux (encodeLines lines)

/-! ## The `Model` class -/

/-- Modelled from the spec: class `Model` (imported from `model.py`,
which is absent from `src/`).  Spec §3 "Model": one instance per
Parameter ID, owning its hyperparameter tuple and position range and
accumulating the Energy Records routed to it; §4.4: `addMacrostateData`
stores a 20-length energy vector for a (macrostate, position) slot,
later records for the same slot replacing earlier ones, while
`addMicrostateData` retains microstate records individually.  Stored
records are represented as (macrostate index, aligned position, energy
vector) triples. -/
structure Model where
  ensembleSize : ℤ
  backrubTemp : ℚ
  boltzmannTemp : ℚ
  nPositions : ℕ
  minPosition : ℤ
  records : List (ℕ × ℤ × List ℚ)
deriving DecidableEq, Repr

/-- Modelled from the spec (§4.4): store the energy vector at the
(macrostate, position) slot, overwriting any prior value there. -/
def Model.addMacrostateData (m : Model) (mac : ℕ) (pos : ℤ) (energies : List ℚ) : Model :=
  { m with records := m.records.filter (fun r => !(r.1 == mac && r.2.1 == pos)) ++ [(mac, pos, energies)] }

/-- Modelled from the spec (§4.4): microstate records are retained
individually. -/
def Model.addMicrostateData (m : Model) (mac : ℕ) (pos : ℤ) (energies : List ℚ) : Model :=
  { m with records := m.records ++ [(mac, pos, energies)] }

/-! ## Energy table ingestion -/

/-- One data line of the tab-delimited macrostate table, after
`line.split('\t')` (Optimizer.py:192-198): the five leading fields as
the raw strings, and the residue→energy dictionary produced by
`ast.literal_eval(entries[5])` (the dict literal's parsing itself is
not modelled). -/
structure MacroRow where
  macrostate : String
  backrubT : String
  ensembleS : String
  boltzmanT : String
  position : String
  energies : List (String × ℚ)
deriving DecidableEq, Repr

/-- One data line of the microstate table (Optimizer.py:281-287). -/
structure MicroRow where
  macrostate : String
  backrubT : String
  position : String
  backbone : String
  energies : List (String × ℚ)
deriving DecidableEq, Repr

/-- Optimizer.py:217-222: the Boltzmann-temperature field text `"min"`
denotes the sentinel 0.0 and `"mean"` the sentinel −1.0; anything else
must convert by `float()`, whose failure raises `ValueError`. -/
def parseBoltzmannT (s : String) : Except PyErr ℚ :=
  if s = "min" then .ok 0
  else if s = "mean" then .ok (-1)
  else getOrErr (pyFloat s) .valueError

/-- Optimizer.py:228-231 (and 298-301): `temp[i] = energies[indexToRes[i]]`
for `i in range(20)`; a residue code missing from the dictionary raises
an uncaught `KeyError` here. -/
def energiesToArray (d : List (String × ℚ)) : Except PyErr (List ℚ) :=
  efold (fun acc i => (getOrErr (d.lookup (indexToRes i)) .keyError).map (fun q => acc ++ [q]))
    [] (List.range 20)

/-- Optimizer.py:234-239 (and 308-313): route a record into the cached
model under `ID` when present (in-place mutation of that model), else
create a fresh model, add the record to it and insert it.  The cache is
a Python dict, i.e. an insertion-ordered association list with unique
keys. -/
def storeRecord (models : List (String × Model)) (ID : String) (upd : Model → Model)
    (fresh : Model) : List (String × Model) :=
  if (models.lookup ID).isSome then
    models.map (fun kv => if kv.1 = ID then (kv.1, upd kv.2) else kv)
  else models ++ [(ID, upd fresh)]

/-- A complete residue→energy dictionary (all twenty canonical codes),
used by the concrete evaluations. -/
def zeroEnergies : List (String × ℚ) :=
  [("A", 0), ("C", 0), ("D", 0), ("E", 0), ("F", 0), ("G", 0), ("H", 0), ("I", 0), ("K", 0),
    ("L", 0), ("M", 0), ("N", 0), ("P", 0), ("Q", 0), ("R", 0), ("S", 0), ("T", 0), ("V", 0),
    ("W", 0), ("Y", 0)]

/-- The mutable optimizer state touched by `readData`. -/
structure RDState where
  models : List (String × Model)
  isFirstEntry : Bool
  minPosition : ℤ
deriving DecidableEq, Repr

/-- One iteration of the `readData` loop over a data line
(Optimizer.py:192-239), in source order: macrostate lookup (`KeyError`
on an unknown name), `int()` conversions of position and ensemble size,
`minPosition` taken from the first data record, the window filter
(`continue` on out-of-range positions), `float()` conversion of the
backrub temperature, Boltzmann-field interpretation, Parameter ID
computation from the converted values, energy-array construction, and
storage. -/
def readDataStep (m2i : List (String × ℕ)) (nPositions : ℕ) (st : RDState) (row : MacroRow) :
    Except PyErr RDState := do
  let mac ← getOrErr (m2i.lookup row.macrostate) .keyError
  let pos ← getOrErr (pyInt row.position) .valueError
  let ens ← getOrErr (pyInt row.ensembleS) .valueError
  let minP := if st.isFirstEntry then pos else st.minPosition
  if pos < minP ∨ pos ≥ minP + (nPositions : ℤ) then .ok ⟨st.models, false, minP⟩
  else do
    let bt ← getOrErr (pyFloat row.backrubT) .valueError
    let boltz ← parseBoltzmannT row.boltzmanT
    let ID := calcParamsID (.pfloat bt) (.pint ens) (.pfloat boltz)
    let e ← energiesToArray row.energies
    .ok ⟨storeRecord st.models ID (fun m => m.addMacrostateData mac pos e)
          ⟨ens, bt, boltz, nPositions, minP, []⟩, false, minP⟩

/-- `Optimizer.readData` (Optimizer.py:164-242) over the data rows of
the table (the header line is discarded by the `isFirstLine` flag).
`m2i` is the `macStateToIndex` dictionary built by the constructor;
`nPositions` was fixed by `readTargetFrequencies`.  The cache is
cleared and `minPosition` reset to 65535 before the loop. -/
def readData (m2i : List (String × ℕ)) (nPositions : ℕ) (rows : List MacroRow) :
    Except PyErr RDState :=
  efold (readDataStep m2i nPositions) ⟨[], true, 65535⟩ rows

/-- The mutable optimizer state touched by `readMicrostateData`. -/
structure RMState where
  models : List (String × Model)
  minPosition : ℤ
  maxPos : ℤ
  nPositionsOut : ℤ
deriving DecidableEq, Repr

/-- One iteration of the `readMicrostateData` loop (Optimizer.py:281-313),
in source order: `int()` of the position field, the window filter
(skip, with a printed notice), `float()` of the backrub temperature,
macrostate lookup, energy-array construction, `maxPos` update, and
storage under the ID computed from `(backrubT, None, None)` with
placeholder ensemble size 0 and Boltzmann temperature 0. -/
def readMicrostateDataStep (m2i : List (String × ℕ)) (nPositions : ℕ) (st : RMState)
    (row : MicroRow) : Except PyErr RMState := do
  let pos ← getOrErr (pyInt row.position) .valueError
  if pos < st.minPosition ∨ pos ≥ st.minPosition + (nPositions : ℤ) then .ok st
  else do
    let bt ← getOrErr (pyFloat row.backrubT) .valueError
    let mac ← getOrErr (m2i.lookup row.macrostate) .keyError
    let e ← energiesToArray row.energies
    let maxPos' := if pos > st.maxPos then pos else st.maxPos
    let ID := calcParamsID (.pfloat bt) .pnone .pnone
    .ok ⟨storeRecord st.models ID (fun m => m.addMicrostateData mac pos e)
          ⟨0, bt, 0, nPositions, st.minPosition, []⟩, st.minPosition, maxPos', st.nPositionsOut⟩

/-- `Optimizer.readMicrostateData` (Optimizer.py:245-322) over the data
rows: the cache is cleared, `minPosition` is the explicitly supplied
argument and `maxPos` starts at 0; after the loop, when positions are
contiguous, `nPositions` is recomputed as `maxPos - minPosition + 1`. -/
def readMicrostateData (m2i : List (String × ℕ)) (nPositions : ℕ) (contiguousPositions : Bool)
    (minPosition : ℤ) (rows : List MicroRow) : Except PyErr RMState := do
  let st ← efold (readMicrostateDataStep m2i nPositions) ⟨[], minPosition, 0, (nPositions : ℤ)⟩ rows
  .ok (if contiguousPositions then ⟨st.models, st.minPosition, st.maxPos, st.maxPos - st.minPosition + 1⟩ else st)

/-! ## `Optimizer.getModelByParams` (Optimizer.py:451-463) -/

/-- `return self.models[Optimizer.calcParamsID(param1, param2, param3)]`,
in state-passing form: the first component is the result of the dict
subscript read (`KeyError` — a subclass of `LookupError` — when the ID
is absent), the second the cache after the call; a dict subscript read
never modifies the dict. -/
def getModelByParams (models : List (String × Model)) (p1 p2 p3 : PyParam) :
    Except PyErr Model × List (String × Model) :=
  (getOrErr (models.lookup (calcParamsID p1 p2 p3)) .keyError, models)

/-! ## `Optimizer.positionReindexer` (Optimizer.py:324-343) -/

/-- A Python subscript key: an int or a string. -/
inductive PyKey where
  | kint (i : ℤ)
  | kstr (s : String)
deriving DecidableEq, Repr

/-- Python list item assignment `l[key] = v`: a non-integer key raises
`TypeError`; an integer key outside the list raises `IndexError`.
(Negative integer keys index from the end in Python; the keys reaching
this operation in the embedded code are always strings, so that branch
is modelled for non-negative indices only.) -/
def pyListSetItem (l : List ℤ) (key : PyKey) (v : ℤ) : Except PyErr (List ℤ) :=
  match key with
  | .kint i => if 0 ≤ i ∧ i < (l.length : ℤ) then .ok (l.set i.toNat v) else .error .indexError
  | .kstr _ => .error .typeError

/-- Python `str.split(sep)` for a single-character separator. -/
def splitOnChar (sep : Char) : List Char → List (List Char)
  | [] => [[]]
  | c :: cs =>
    let r := splitOnChar sep cs
    if c = sep then [] :: r
    else
      match r with
      | h :: t => (c :: h) :: t
      | [] => [[c]]

/-- Python `str.strip('\n')`: remove leading and trailing newline
characters. -/
def stripNl (cs : List Char) : List Char :=
  ((cs.dropWhile (fun c => c = '\n')).reverse.dropWhile (fun c => c = '\n')).reverse

/-- One iteration of the `positionReindexer` loop (Optimizer.py:336-340):
split the line on spaces, take field 2 (`IndexError` when absent),
strip newlines, then execute `indices[i] = n` — a list item assignment
whose key is the string `i`. -/
def positionReindexerStep (st : List ℤ × ℕ) (l : List Char) : Except PyErr (List ℤ × ℕ) := do
  let entries := splitOnChar ' ' l
  let i ← getOrErr (entries.get? 2) .indexError
  let indices ← pyListSetItem st.1 (.kstr ⟨stripNl i⟩) (st.2 : ℤ)
  .ok (indices, st.2 + 1)

/-- `Optimizer.positionReindexer` (Optimizer.py:324-343): `indices`
starts as the empty list; after the loop, `indices['nPos'] = n` is a
further string-keyed list assignment. -/
def positionReindexer (lines : List String) : Except PyErr (List ℤ) := do
  let st ← efold positionReindexerStep ([], 0) (encodeLines lines)
  let indices ← pyListSetItem st.1 (.kstr "nPos") (st.2 : ℤ)
  .ok indices

/-- Decidable equality of embedded results, for evaluating the embedded
code on concrete inputs. -/
instance exceptDecidableEq {ε α : Type} [DecidableEq ε] [DecidableEq α] :
    DecidableEq (Except ε α) := fun a b =>
  match a, b with
  | .error e, .error f =>
    if h : e = f then .isTrue (by rw [h]) else .isFalse (fun hc => h (Except.error.inj hc))
  | .error _, .ok _ => .isFalse (fun hc => Except.noConfusion hc)
  | .ok _, .error _ => .isFalse (fun hc => Except.noConfusion hc)
  | .ok a, .ok b =>
    if h : a = b then .isTrue (by rw [h]) else .isFalse (fun hc => h (Except.ok.inj hc))

/-! ## Properties of the parameter rendering -/

/-- Inverse of `digitChar` on decimal digits. -/
def undigit (c : Char) : ℕ := c.toNat - 48

theorem undigit_digitChar {d : ℕ} (h : d < 10) : undigit (digitChar d) = d := by
  interval_cases d <;> rfl

theorem digitChar_isDigit {d : ℕ} (h : d < 10) : (digitChar d).isDigit = true := by
  interval_cases d <;> rfl

theorem natStrAux_eq :
    ∀ (fuel n : ℕ), n ≤ fuel → natStrAux fuel n = ((Nat.digits 10 n).map digitChar).reverse := by
  intro fuel
  induction fuel with
  | zero =>
    intro n hn
    interval_cases n
    simp [natStrAux]
  | succ fuel ih =>
    intro n hn
    match n with
    | 0 => simp [natStrAux]
    | m + 1 =>
      have hdiv : (m + 1) / 10 ≤ fuel := by
        have := Nat.div_lt_self (Nat.succ_pos m) (by norm_num : 1 < 10)
        omega
      show natStrAux fuel ((m + 1) / 10) ++ [digitChar ((m + 1) % 10)] = _
      rw [ih _ hdiv, Nat.digits_def' (by norm_num : 1 < 10) (Nat.succ_pos m)]
      simp

theorem natStr_eq (n : ℕ) :
    natStr n = if n = 0 then ['0'] else ((Nat.digits 10 n).map digitChar).reverse := by
  unfold natStr
  split
  · rfl
  · exact natStrAux_eq n n le_rfl

theorem mem_natStr_isDigit {c : Char} {n : ℕ} (h : c ∈ natStr n) : c.isDigit = true := by
  rw [natStr_eq] at h
  split at h
  · simp only [List.mem_singleton] at h
    subst h
    rfl
  · rw [List.mem_reverse] at h
    obtain ⟨d, hd, rfl⟩ := List.mem_map.mp h
    exact digitChar_isDigit (Nat.digits_lt_base (by norm_num) hd)

theorem natStr_ne_nil (n : ℕ) : natStr n ≠ [] := by
  rw [natStr_eq]
  split
  · simp
  · simpa using Nat.digits_ne_nil_iff_ne_zero.mpr (by assumption)

theorem map_undigit_digitChar {l : List ℕ} (hl : ∀ d ∈ l, d < 10) :
    (l.map digitChar).map undigit = l := by
  rw [List.map_map]
  have : ∀ d ∈ l, (undigit ∘ digitChar) d = id d := fun d hd => undigit_digitChar (hl d hd)
  rw [List.map_congr_left this, List.map_id]

theorem digits_eq_singleton_zero {n : ℕ} (h : (Nat.digits 10 n).map digitChar = ['0']) :
    n = 0 := by
  have hd : Nat.digits 10 n = [0] := by
    have h' := congrArg (List.map undigit) h
    rw [map_undigit_digitChar (fun d hd => Nat.digits_lt_base (by norm_num) hd)] at h'
    have : List.map undigit ['0'] = [0] := rfl
    rw [this] at h'
    exact h'
  have h0 := Nat.ofDigits_digits 10 n
  rw [hd] at h0
  simpa [Nat.ofDigits] using h0.symm

theorem natStr_injective : Function.Injective natStr := by
  intro m n h
  rw [natStr_eq, natStr_eq] at h
  by_cases hm : m = 0 <;> by_cases hn : n = 0
  · omega
  · exfalso
    rw [if_pos hm, if_neg hn] at h
    have h' : (Nat.digits 10 n).map digitChar = ['0'] := by
      have := congrArg List.reverse h
      simpa using this.symm
    exact hn (digits_eq_singleton_zero h')
  · exfalso
    rw [if_neg hm, if_pos hn] at h
    have h' : (Nat.digits 10 m).map digitChar = ['0'] := by
      have := congrArg List.reverse h
      simpa using this
    exact hm (digits_eq_singleton_zero h')
  · rw [if_neg hm, if_neg hn] at h
    have h' := List.reverse_injective h
    have h'' := congrArg (List.map undigit) h'
    rw [map_undigit_digitChar (fun d hd => Nat.digits_lt_base (by norm_num) hd),
      map_undigit_digitChar (fun d hd => Nat.digits_lt_base (by norm_num) hd)] at h''
    calc m = Nat.ofDigits 10 (Nat.digits 10 m) := (Nat.ofDigits_digits 10 m).symm
    _ = Nat.ofDigits 10 (Nat.digits 10 n) := by rw [h'']
    _ = n := Nat.ofDigits_digits 10 n

theorem mem_intStr {c : Char} {n : ℤ} (h : c ∈ intStr n) : c = '-' ∨ c.isDigit = true := by
  unfold intStr at h
  split at h
  · rcases List.mem_cons.mp h with h | h
    · exact Or.inl h
    · exact Or.inr (mem_natStr_isDigit h)
  · exact Or.inr (mem_natStr_isDigit h)

theorem intStr_injective : Function.Injective intStr := by
  intro m n h
  unfold intStr at h
  split at h <;> split at h
  · injection h with _ h2
    have := natStr_injective h2
    omega
  · exfalso
    have hm : '-' ∈ natStr n.natAbs := by
      rw [← h]
      exact List.mem_cons_self _ _
    exact absurd (mem_natStr_isDigit hm) (by decide)
  · exfalso
    have hm : '-' ∈ natStr m.natAbs := by
      rw [h]
      exact List.mem_cons_self _ _
    exact absurd (mem_natStr_isDigit hm) (by decide)
  · have := natStr_injective h
    omega

/-- Splitting a separator-free prefix off at a separator character is
unambiguous. -/
theorem append_sep_inj {sep : Char} {a₁ : List Char} :
    ∀ {a₂ r₁ r₂ : List Char}, (∀ c ∈ a₁, c ≠ sep) → (∀ c ∈ a₂, c ≠ sep) →
      a₁ ++ sep :: r₁ = a₂ ++ sep :: r₂ → a₁ = a₂ ∧ r₁ = r₂ := by
  induction a₁ with
  | nil =>
    intro a₂ r₁ r₂ _ h₂ h
    cases a₂ with
    | nil => simpa using h
    | cons b bs =>
      exfalso
      simp only [List.nil_append, List.cons_append] at h
      injection h with hb _
      exact h₂ b (List.mem_cons_self _ _) hb.symm
  | cons a as ih =>
    intro a₂ r₁ r₂ h₁ h₂ h
    cases a₂ with
    | nil =>
      exfalso
      simp only [List.nil_append, List.cons_append] at h
      injection h with hb _
      exact h₁ a (List.mem_cons_self _ _) hb
    | cons b bs =>
      simp only [List.cons_append] at h
      injection h with hb ht
      subst hb
      obtain ⟨he, hr⟩ := ih (fun c hc => h₁ c (List.mem_cons_of_mem _ hc))
        (fun c hc => h₂ c (List.mem_cons_of_mem _ hc)) ht
      exact ⟨by rw [he], hr⟩

theorem mem_natStr_ne_dot {c : Char} {n : ℕ} (h : c ∈ natStr n) : c ≠ '.' := by
  intro hc
  rw [hc] at h
  exact absurd (mem_natStr_isDigit h) (by decide)

theorem mem_ratStr {c : Char} {q : ℚ} (h : c ∈ ratStr q) :
    c = '-' ∨ c = '.' ∨ c.isDigit = true := by
  unfold ratStr at h
  rcases List.mem_append.mp h with h' | h'
  · rcases List.mem_append.mp h' with h'' | h''
    · split at h''
      · simp only [List.mem_singleton] at h''
        exact Or.inl h''
      · exact absurd h'' (List.not_mem_nil c)
    · exact Or.inr (Or.inr (mem_natStr_isDigit h''))
  · rcases List.mem_cons.mp h' with h₃ | h₃
    · exact Or.inr (Or.inl h₃)
    · exact Or.inr (Or.inr (mem_natStr_isDigit h₃))

theorem no_dash_in_ratBody {a b : ℕ} (h : '-' ∈ natStr a ++ '.' :: natStr b) : False := by
  rcases List.mem_append.mp h with h' | h'
  · exact absurd (mem_natStr_isDigit h') (by decide)
  · rcases List.mem_cons.mp h' with h'' | h''
    · exact absurd h'' (by decide)
    · exact absurd (mem_natStr_isDigit h'') (by decide)

theorem dash_natStr_ne_dot {a : ℕ} : ∀ c ∈ '-' :: natStr a, c ≠ '.' := by
  intro c hc
  rcases List.mem_cons.mp hc with h' | h'
  · rw [h']
    decide
  · exact mem_natStr_ne_dot h'

theorem ratStr_injective : Function.Injective ratStr := by
  intro p q h
  unfold ratStr at h
  by_cases hp : p < 0 <;> by_cases hq : q < 0
  case pos =>
    rw [if_pos hp, if_pos hq] at h
    simp only [List.singleton_append] at h
    obtain ⟨hnum, hden⟩ := append_sep_inj dash_natStr_ne_dot dash_natStr_ne_dot h
    injection hnum with _ hnum2
    have hnum' : p.num.natAbs = q.num.natAbs := natStr_injective hnum2
    have hden' : p.den = q.den := natStr_injective hden
    have hpn : p.num < 0 := by
      by_contra hc
      exact absurd (Rat.num_nonneg.mp (le_of_not_lt hc)) (not_le_of_lt hp)
    have hqn : q.num < 0 := by
      by_contra hc
      exact absurd (Rat.num_nonneg.mp (le_of_not_lt hc)) (not_le_of_lt hq)
    exact Rat.ext (by omega) hden'
  case neg =>
    exfalso
    rw [if_pos hp, if_neg hq] at h
    simp only [List.singleton_append, List.nil_append] at h
    have hmem : '-' ∈ natStr q.num.natAbs ++ '.' :: natStr q.den := by
      rw [← h]
      exact List.mem_append.mpr (Or.inl (List.mem_cons_self _ _))
    exact no_dash_in_ratBody hmem
  case pos =>
    exfalso
    rw [if_neg hp, if_pos hq] at h
    simp only [List.singleton_append, List.nil_append] at h
    have hmem : '-' ∈ natStr p.num.natAbs ++ '.' :: natStr p.den := by
      rw [h]
      exact List.mem_append.mpr (Or.inl (List.mem_cons_self _ _))
    exact no_dash_in_ratBody hmem
  case neg =>
    rw [if_neg hp, if_neg hq] at h
    simp only [List.nil_append] at h
    obtain ⟨hnum, hden⟩ := append_sep_inj (fun c hc => mem_natStr_ne_dot hc)
      (fun c hc => mem_natStr_ne_dot hc) h
    have hnum' : p.num.natAbs = q.num.natAbs := natStr_injective hnum
    have hden' : p.den = q.den := natStr_injective hden
    have hpn : 0 ≤ p.num := Rat.num_nonneg.mpr (le_of_not_lt hp)
    have hqn : 0 ≤ q.num := Rat.num_nonneg.mpr (le_of_not_lt hq)
    exact Rat.ext (by omega) hden'

theorem pyChars_injective : Function.Injective pyChars := by
  intro p q h
  have hint : ∀ (n : ℤ), '.' ∉ intStr n := by
    intro n hc
    rcases mem_intStr hc with h' | h' <;> exact absurd h' (by decide)
  have hdotrat : ∀ (x : ℚ), '.' ∈ ratStr x := by
    intro x
    unfold ratStr
    exact List.mem_append.mpr (Or.inr (List.mem_cons_self _ _))
  have hNint : ∀ (n : ℤ), 'N' ∉ intStr n := by
    intro n hc
    rcases mem_intStr hc with h' | h' <;> exact absurd h' (by decide)
  have hNrat : ∀ (x : ℚ), 'N' ∉ ratStr x := by
    intro x hc
    rcases mem_ratStr hc with h' | h' | h' <;> exact absurd h' (by decide)
  cases p <;> cases q <;> simp only [pyChars] at h
  case pint.pint => rw [intStr_injective h]
  case pint.pfloat n x =>
    exfalso
    refine hint n ?_
    rw [h]
    exact hdotrat x
  case pint.pnone n =>
    exfalso
    refine hNint n ?_
    rw [h]
    exact List.mem_cons_self _ _
  case pfloat.pint x n =>
    exfalso
    refine hint n ?_
    rw [← h]
    exact hdotrat x
  case pfloat.pfloat => rw [ratStr_injective h]
  case pfloat.pnone x =>
    exfalso
    refine hNrat x ?_
    rw [h]
    exact List.mem_cons_self _ _
  case pnone.pint n =>
    exfalso
    refine hNint n ?_
    rw [← h]
    exact List.mem_cons_self _ _
  case pnone.pfloat x =>
    exfalso
    refine hNrat x ?_
    rw [← h]
    exact List.mem_cons_self _ _
  case pnone.pnone => rfl

theorem pyChars_no_space {c : Char} {p : PyParam} (h : c ∈ pyChars p) : c ≠ ' ' := by
  intro hc
  subst hc
  cases p <;> simp only [pyChars] at h
  case pint n => rcases mem_intStr h with h' | h' <;> exact absurd h' (by decide)
  case pfloat x => rcases mem_ratStr h with h' | h' | h' <;> exact absurd h' (by decide)
  case pnone => exact absurd h (by decide)

/-- `calcParamsID` decides equality of the whole hyperparameter triple:
the component renderings are space-free and injective, so the
space-joined concatenation is injective. -/
theorem calcParamsID_inj {p1 p2 p3 q1 q2 q3 : PyParam}
    (h : calcParamsID p1 p2 p3 = calcParamsID q1 q2 q3) :
    p1 = q1 ∧ p2 = q2 ∧ p3 = q3 := by
  have hd : pyChars p1 ++ ' ' :: (pyChars p2 ++ ' ' :: pyChars p3)
      = pyChars q1 ++ ' ' :: (pyChars q2 ++ ' ' :: pyChars q3) := by
    have := congrArg String.data h
    simpa [calcParamsID, pyStr, String.data_append, List.append_assoc] using this
  obtain ⟨h1, hrest⟩ := append_sep_inj (fun c hc => pyChars_no_space hc)
    (fun c hc => pyChars_no_space hc) hd
  obtain ⟨h2, h3⟩ := append_sep_inj (fun c hc => pyChars_no_space hc)
    (fun c hc => pyChars_no_space hc) hrest
  exact ⟨pyChars_injective h1, pyChars_injective h2, pyChars_injective h3⟩

/-! ## List-update and fold lemmas -/

theorem length_updAt (f : α → α) : ∀ (l : List α) (i : ℕ), (updAt i f l).length = l.length := by
  intro l
  induction l with
  | nil =>
    intro i
    cases i <;> rfl
  | cons a as ih =>
    intro i
    cases i with
    | zero => rfl
    | succ i => simp [updAt, ih i]

theorem getD_updAt_self (f : α → α) (d : α) :
    ∀ (l : List α) (i : ℕ), i < l.length → (updAt i f l).getD i d = f (l.getD i d) := by
  intro l
  induction l with
  | nil =>
    intro i h
    simp at h
  | cons a as ih =>
    intro i h
    cases i with
    | zero => rfl
    | succ i =>
      show (a :: updAt i f as).getD (i + 1) d = f ((a :: as).getD (i + 1) d)
      rw [List.getD_cons_succ, List.getD_cons_succ]
      exact ih i (by simpa using h)

theorem getD_updAt_ne (f : α → α) (d : α) :
    ∀ (l : List α) (i j : ℕ), j ≠ i → (updAt i f l).getD j d = l.getD j d := by
  intro l
  induction l with
  | nil =>
    intro i j _
    cases i <;> rfl
  | cons a as ih =>
    intro i j h
    cases i with
    | zero =>
      cases j with
      | zero => exact absurd rfl h
      | succ j =>
        show (f a :: as).getD (j + 1) d = (a :: as).getD (j + 1) d
        rw [List.getD_cons_succ, List.getD_cons_succ]
    | succ i =>
      cases j with
      | zero => rfl
      | succ j =>
        show (a :: updAt i f as).getD (j + 1) d = (a :: as).getD (j + 1) d
        rw [List.getD_cons_succ, List.getD_cons_succ]
        exact ih i j (fun hc => h (by rw [hc]))

theorem mem_updAt {f : α → α} :
    ∀ {l : List α} {i : ℕ} {x : α}, x ∈ updAt i f l → x ∈ l ∨ ∃ b ∈ l, x = f b := by
  intro l
  induction l with
  | nil =>
    intro i x h
    cases i with
    | zero => exact Or.inl h
    | succ i => exact Or.inl h
  | cons a as ih =>
    intro i x h
    cases i with
    | zero =>
      rcases List.mem_cons.mp h with h' | h'
      · exact Or.inr ⟨a, List.mem_cons_self _ _, h'⟩
      · exact Or.inl (List.mem_cons_of_mem _ h')
    | succ i =>
      rcases List.mem_cons.mp h with h' | h'
      · exact Or.inl (h' ▸ List.mem_cons_self _ _)
      · rcases ih h' with h'' | ⟨b, hb, hx⟩
        · exact Or.inl (List.mem_cons_of_mem _ h'')
        · exact Or.inr ⟨b, List.mem_cons_of_mem _ hb, hx⟩

theorem sum_updAt_succ :
    ∀ (l : List ℕ) (j : ℕ), j < l.length → (updAt j (fun x => x + 1) l).sum = l.sum + 1 := by
  intro l
  induction l with
  | nil =>
    intro j h
    simp at h
  | cons a as ih =>
    intro j h
    cases j with
    | zero =>
      show ((a + 1) :: as).sum = (a :: as).sum + 1
      simp [List.sum_cons]
      omega
    | succ j =>
      show (a :: updAt j _ as).sum = (a :: as).sum + 1
      simp only [List.sum_cons]
      rw [ih j (by simpa using h)]
      omega

theorem efold_ok_inv {σ α : Type} {f : σ → α → Except PyErr σ} (P : σ → Prop) :
    ∀ (l : List α) (s s' : σ), (∀ t a, a ∈ l → P t → ∀ t', f t a = .ok t' → P t') →
      efold f s l = .ok s' → P s → P s' := by
  intro l
  induction l with
  | nil =>
    intro s s' _ hfold hs
    unfold efold at hfold
    injection hfold with h
    exact h ▸ hs
  | cons a as ih =>
    intro s s' hstep hfold hs
    unfold efold at hfold
    cases hfa : f s a with
    | ok t =>
      rw [hfa] at hfold
      exact ih t s' (fun t' b hb => hstep t' b (List.mem_cons_of_mem _ hb)) hfold
        (hstep s a (List.mem_cons_self _ _) hs t hfa)
    | error e =>
      rw [hfa] at hfold
      cases hfold

theorem efold_nil {σ α : Type} (f : σ → α → Except PyErr σ) (s : σ) :
    efold f s [] = .ok s := rfl

theorem efold_cons {σ α : Type} (f : σ → α → Except PyErr σ) (s : σ) (a : α) (as : List α) :
    efold f s (a :: as)
      = match f s a with
        | .ok s' => efold f s' as
        | .error e => .error e := rfl

theorem efold_append {σ α : Type} {f : σ → α → Except PyErr σ} :
    ∀ (l₁ l₂ : List α) (s : σ), efold f s (l₁ ++ l₂)
      = match efold f s l₁ with
        | .ok s' => efold f s' l₂
        | .error e => .error e := by
  intro l₁
  induction l₁ with
  | nil =>
    intro l₂ s
    rfl
  | cons a as ih =>
    intro l₂ s
    rw [List.cons_append]
    cases hfa : f s a with
    | ok t =>
      have h1 : efold f s (a :: (as ++ l₂)) = efold f t (as ++ l₂) := by
        rw [efold_cons, hfa]
      have h2 : efold f s (a :: as) = efold f t as := by
        rw [efold_cons, hfa]
      rw [h1, h2]
      exact ih l₂ t
    | error e =>
      have h1 : efold f s (a :: (as ++ l₂)) = .error e := by
        rw [efold_cons, hfa]
      have h2 : efold f s (a :: as) = .error e := by
        rw [efold_cons, hfa]
      rw [h1, h2]

theorem getD_mem {α : Type} : ∀ {l : List α} {i : ℕ}, i < l.length → ∀ d : α, l.getD i d ∈ l := by
  intro l
  induction l with
  | nil =>
    intro i h
    simp at h
  | cons a as ih =>
    intro i h d
    cases i with
    | zero => exact List.mem_cons_self _ _
    | succ i =>
      rw [List.getD_cons_succ]
      exact List.mem_cons_of_mem _ (ih (by simpa using h) d)

theorem getD_zipWith {α β γ : Type} (f : α → β → γ) :
    ∀ (as : List α) (bs : List β) (i : ℕ), i < as.length → i < bs.length →
      ∀ (da : α) (db : β) (dc : γ),
        (List.zipWith f as bs).getD i dc = f (as.getD i da) (bs.getD i db) := by
  intro as
  induction as with
  | nil =>
    intro bs i h
    simp at h
  | cons a as ih =>
    intro bs i h h' da db dc
    cases bs with
    | nil => simp at h'
    | cons b bs =>
      cases i with
      | zero => rfl
      | succ i =>
        show (f a b :: List.zipWith f as bs).getD (i + 1) dc = _
        rw [List.getD_cons_succ, List.getD_cons_succ, List.getD_cons_succ]
        exact ih bs i (by simpa using h) (by simpa using h') da db dc

/-! ## The counting invariant of `readTargetFrequencies` -/

theorem resToIndex_lt {c : Char} {j : ℕ} (h : resToIndex c = some j) : j < 20 := by
  unfold resToIndex at h
  split at h <;> first
  | (injection h with h'; omega)
  | (simp at h)

theorem flushStep_inv {nPos : ℕ} {entry : List Char} {cn cn' : List (List ℕ) × List ℕ} {i : ℕ}
    (hi : i < nPos) (hinv : CountsInv nPos cn.1 cn.2)
    (hstep : flushStep entry cn i = .ok cn') : CountsInv nPos cn'.1 cn'.2 := by
  obtain ⟨hc, hn, hrows, hsums⟩ := hinv
  unfold flushStep at hstep
  split at hstep
  · cases hstep
  · rename_i ch hget
    split at hstep
    · injection hstep with h
      exact h ▸ ⟨hc, hn, hrows, hsums⟩
    · split at hstep
      · injection hstep with h
        exact h ▸ ⟨hc, hn, hrows, hsums⟩
      · rename_i j hres
        injection hstep with h
        subst h
        have hj20 : j < 20 := resToIndex_lt hres
        have hirow : i < cn.1.length := by omega
        have hrowi : cn.1.getD i [] ∈ cn.1 := getD_mem hirow []
        have hrowlen : (cn.1.getD i []).length = 20 := hrows _ hrowi
        refine ⟨?_, ?_, ?_, ?_⟩
        · rw [length_updAt]
          exact hc
        · rw [length_updAt]
          exact hn
        · intro row hrow
          rcases mem_updAt hrow with h' | ⟨b, hb, rfl⟩
          · exact hrows _ h'
          · rw [length_updAt]
            exact hrows _ hb
        · intro k
          by_cases hk : k = i
          · subst hk
            rw [getD_updAt_self _ _ _ _ hirow, getD_updAt_self _ _ _ _ (by omega)]
            rw [sum_updAt_succ _ _ (by omega)]
            rw [hsums k]
          · rw [getD_updAt_ne _ _ _ _ _ hk, getD_updAt_ne _ _ _ _ _ hk]
            exact hsums k

theorem flushEntry_inv {nPos : ℕ} {entry : List Char} {c : List (List ℕ)} {n : List ℕ}
    {cn' : List (List ℕ) × List ℕ} (hinv : CountsInv nPos c n)
    (h : flushEntry nPos entry c n = .ok cn') : CountsInv nPos cn'.1 cn'.2 := by
  refine efold_ok_inv (fun cn => CountsInv nPos cn.1 cn.2) (List.range nPos) (c, n) cn'
    ?_ h hinv
  intro t i hi hP t' ht'
  exact flushStep_inv (List.mem_range.mp hi) hP ht'

theorem lineStep_inv {nPos : ℕ} {st st' : FState} {l : List Char}
    (hinv : CountsInv nPos st.counts st.nEntries)
    (h : lineStep nPos st l = .ok st') : CountsInv nPos st'.counts st'.nEntries := by
  unfold lineStep at h
  split at h
  · split at h
    · injection h with h
      exact h ▸ hinv
    · split at h
      · rename_i cn hf
        injection h with h
        subst h
        exact flushEntry_inv hinv hf
      · cases h
  · injection h with h
    exact h ▸ hinv

theorem getD_replicate {α : Type} (a d : α) :
    ∀ (n k : ℕ), (List.replicate n a).getD k d = if k < n then a else d := by
  intro n
  induction n with
  | zero =>
    intro k
    simp
  | succ n ih =>
    intro k
    cases k with
    | zero => simp [List.replicate]
    | succ k =>
      show (a :: List.replicate n a).getD (k + 1) d = _
      rw [List.getD_cons_succ, ih k]
      simp [Nat.succ_lt_succ_iff]

theorem fastaCounts_inv {nPos : ℕ} {ls : List (List Char)}
    {counts : List (List ℕ)} {nEntries : List ℕ}
    (h : fastaCounts nPos ls = .ok (counts, nEntries)) : CountsInv nPos counts nEntries := by
  unfold fastaCounts at h
  cases hf : efold (lineStep nPos)
      ⟨List.replicate nPos (List.replicate 20 0), List.replicate nPos 0, []⟩ ls with
  | error e =>
    rw [hf] at h
    cases h
  | ok st =>
    rw [hf] at h
    injection h with h
    have hinit : CountsInv nPos (List.replicate nPos (List.replicate 20 0))
        (List.replicate nPos 0) := by
      refine ⟨List.length_replicate _ _, List.length_replicate _ _, ?_, ?_⟩
      · intro row hrow
        rw [List.eq_of_mem_replicate hrow]
        exact List.length_replicate _ _
      · intro k
        rw [getD_replicate, getD_replicate]
        by_cases hk : k < nPos
        · simp [hk]
        · simp [hk]
    have hst : CountsInv nPos st.counts st.nEntries := by
      refine efold_ok_inv (fun t => CountsInv nPos t.counts t.nEntries) ls _ st ?_ hf hinit
      intro t a _ hP t' ht'
      exact lineStep_inv hP ht'
    have h1 : st.counts = counts := congrArg Prod.fst h
    have h2 : st.nEntries = nEntries := congrArg Prod.snd h
    rw [← h1, ← h2]
    exact hst

theorem rationalSum_map_npDiv {n : ℕ} (hn : n ≠ 0) :
    ∀ row : List ℕ, rationalSum? (row.map (fun a => npDiv a n)) = some ((row.sum : ℚ) / n) := by
  intro row
  induction row with
  | nil => simp [rationalSum?]
  | cons a row ih =>
    have hdiv : npDiv a n = .num ((a : ℚ) / n) := by
      unfold npDiv
      rw [if_neg hn]
    simp only [List.map_cons, hdiv, rationalSum?, ih, Option.map_some']
    have : (((a :: row).sum : ℕ) : ℚ) / n = (a : ℚ) / n + ((row.sum : ℚ)) / n := by
      rw [List.sum_cons, Nat.cast_add, add_div]
    rw [this]

theorem map_npDiv_zero {row : List ℕ} (h20 : row.length = 20) (hz : row.sum = 0) :
    row.map (fun a => npDiv a 0) = List.replicate 20 NpVal.nan := by
  have hall : ∀ a ∈ row, a = 0 := List.sum_eq_zero_iff.mp hz
  rw [List.eq_replicate_iff]
  constructor
  · rw [List.length_map]
    exact h20
  · intro b hb
    obtain ⟨a, ha, rfl⟩ := List.mem_map.mp hb
    rw [hall a ha]
    rfl

/-! ## Claim C1 -/

/-- C1: for any two hyperparameter triples (backrub temperature,
ensemble size, Boltzmann temperature) that are equal as values —
textual formatting being irrelevant, since `calcParamsID` receives the
parsed values — the returned ID strings are identical, and for triples
differing in at least one field the ID strings differ. -/
theorem claim_C1 (p1 p2 p3 q1 q2 q3 : PyParam) :
    calcParamsID p1 p2 p3 = calcParamsID q1 q2 q3 ↔ (p1 = q1 ∧ p2 = q2 ∧ p3 = q3) := by
  constructor
  · exact calcParamsID_inj
  · rintro ⟨rfl, rfl, rfl⟩
    rfl

/-! ## Claim C3 -/

/-- C3: for every state of the model cache and every hyperparameter
triple, `getModelByParams` returns exactly the model stored under the
Parameter ID computed from that triple when one is present, fails with
a `KeyError` (a `LookupError` subclass) when none is stored under that
ID, and leaves the cache unchanged — it never creates or inserts a
model. -/
theorem claim_C3 (models : List (String × Model)) (p1 p2 p3 : PyParam) :
    (∀ m : Model, models.lookup (calcParamsID p1 p2 p3) = some m →
      (getModelByParams models p1 p2 p3).1 = .ok m) ∧
    (models.lookup (calcParamsID p1 p2 p3) = none →
      (getModelByParams models p1 p2 p3).1 = .error .keyError) ∧
    (getModelByParams models p1 p2 p3).2 = models := by
  refine ⟨?_, ?_, rfl⟩
  · intro m hm
    simp [getModelByParams, getOrErr, hm]
  · intro hm
    simp [getModelByParams, getOrErr, hm]

/-- Witness for C3 at a concrete cache: a hit on the stored ID, a miss
on the empty cache, and the unchanged-cache component. -/
theorem claim_C3_witness :
    (getModelByParams [("5 None None", (⟨0, 0, 0, 0, 0, []⟩ : Model))]
      (.pint 5) .pnone .pnone).1 = .ok (⟨0, 0, 0, 0, 0, []⟩ : Model) ∧
    (getModelByParams [] (.pint 5) .pnone .pnone).1 = .error .keyError ∧
    (getModelByParams [("5 None None", (⟨0, 0, 0, 0, 0, []⟩ : Model))]
      (.pint 5) .pnone .pnone).2 = [("5 None None", (⟨0, 0, 0, 0, 0, []⟩ : Model))] := by
  refine ⟨(claim_C3 _ (.pint 5) .pnone .pnone).1 _ ?_, (claim_C3 [] (.pint 5) .pnone .pnone).2.1 ?_,
    (claim_C3 _ (.pint 5) .pnone .pnone).2.2⟩
  · rfl
  · rfl

/-! ## Claim C9 -/

/-- C9 counterexample: the input file with the single line `"x"` has at
least one line, yet `positionReindexer` raises `IndexError` (from
`entries[2]` on the short split), not the `TypeError` the claim
asserts for every non-empty file. -/
theorem claim_C9_counterexample :
    positionReindexer ["x"] = .error .indexError ∧ PyErr.indexError ≠ PyErr.typeError := by
  exact ⟨rfl, by decide⟩

/-- C9 (amended): for every input file with at least one line whose
first line splits into at least three space-separated fields (the
documented format), `positionReindexer` raises `TypeError` before
returning — the string-keyed list assignment `indices[i] = n` on the
first processed line — so it can never produce the index mapping its
documentation describes; a first line with fewer fields fails even
earlier, with `IndexError`. -/
theorem claim_C9_amended (l : String) (ls : List String)
    (h : 3 ≤ (splitOnChar ' ' (l.data ++ ['\n'])).length) :
    positionReindexer (l :: ls) = .error .typeError := by
  have h2 : 2 < (splitOnChar ' ' (l.data ++ ['\n'])).length := by omega
  have hx : (splitOnChar ' ' (l.data ++ ['\n'])).get? 2
      = some ((splitOnChar ' ' (l.data ++ ['\n'])).get ⟨2, h2⟩) := List.get?_eq_get h2
  have hstep : positionReindexerStep ([], 0) (l.data ++ ['\n']) = .error .typeError := by
    unfold positionReindexerStep
    simp only [hx]
    rfl
  unfold positionReindexer encodeLines
  simp only [List.map_cons]
  unfold efold
  rw [hstep]
  rfl

/-- Witness for the amended C9 at the concrete file `["a b c"]`. -/
theorem claim_C9_witness :
    3 ≤ (splitOnChar ' ' (("a b c" : String).data ++ ['\n'])).length ∧
    positionReindexer ["a b c"] = .error .typeError :=
  ⟨by decide, claim_C9_amended "a b c" [] (by decide)⟩

/-! ## Claim C2 -/

theorem readTFAux_cons (l0 : List Char) (rest : List (List Char)) :
    readTFAux (l0 :: rest)
      = match scanEntry rest with
        | .error e => .error e
        | .ok entry =>
          if entry.length < 2 then .error .indexError
          else
            match fastaCounts (entry.length - 1) (l0 :: rest) with
            | .error e => .error e
            | .ok cn => .ok (mkFreqs cn.1 cn.2) := rfl

theorem readTFAux_cons_err {rest : List (List Char)} {e : PyErr} (l0 : List Char)
    (h : scanEntry rest = .error e) : readTFAux (l0 :: rest) = .error e := by
  rw [readTFAux_cons, h]

theorem readTFAux_cons_ok {rest : List (List Char)} {entry : List Char} (l0 : List Char)
    (h : scanEntry rest = .ok entry) :
    readTFAux (l0 :: rest)
      = if entry.length < 2 then .error .indexError
        else
          match fastaCounts (entry.length - 1) (l0 :: rest) with
          | .error e => .error e
          | .ok cn => .ok (mkFreqs cn.1 cn.2) := by
  rw [readTFAux_cons, h]

theorem getD_eq_get {α : Type} :
    ∀ {l : List α} {i : ℕ} (h : i < l.length) (d : α), l.getD i d = l.get ⟨i, h⟩ := by
  intro l
  induction l with
  | nil =>
    intro i h
    simp at h
  | cons a as ih =>
    intro i h d
    cases i with
    | zero => rfl
    | succ i =>
      rw [List.getD_cons_succ]
      exact ih (by simpa using h) d

/-- C2 (amended): after a successful `readTargetFrequencies` call,
every row of the returned profile either sums exactly to 1 (this is the
case at every position where the counting pass saw at least one
non-gap canonical observation) or consists entirely of NaN cells (a
position with zero counted observations: numpy masks the division by
zero with a warning, and no error — in particular no `DataError` — is
raised). -/
theorem claim_C2_amended (lines : List String) (M : List (List NpVal))
    (hok : readTargetFrequencies lines = .ok M) :
    ∀ row ∈ M, rationalSum? row = some 1 ∨ row = List.replicate 20 NpVal.nan := by
  unfold readTargetFrequencies readTFAux at hok
  split at hok
  · cases hok
  · split at hok
    · cases hok
    · rename_i entry hscan
      split at hok
      · cases hok
      · split at hok
        · cases hok
        · rename_i cn hfc
          injection hok with hok
          obtain ⟨hc, hn, hrows, hsums⟩ := fastaCounts_inv hfc
          subst hok
          intro row hrow
          obtain ⟨k, hk⟩ := List.mem_iff_get.mp hrow
          have hilen : (k : ℕ) < (mkFreqs cn.1 cn.2).length := k.isLt
          have hlen : (mkFreqs cn.1 cn.2).length = min cn.1.length cn.2.length :=
        List.length_zipWith _ _ _
          have hic : (k : ℕ) < cn.1.length := by omega
          have hin : (k : ℕ) < cn.2.length := by omega
          have hrow_eq : row = (mkFreqs cn.1 cn.2).getD (k : ℕ) [] := by
            rw [getD_eq_get hilen]
            exact hk.symm
          have hmk : (mkFreqs cn.1 cn.2).getD (k : ℕ) []
              = (cn.1.getD (k : ℕ) []).map (fun a => npDiv a (cn.2.getD (k : ℕ) 0)) :=
            getD_zipWith _ cn.1 cn.2 (k : ℕ) hic hin [] 0 []
          by_cases hz : cn.2.getD (k : ℕ) 0 = 0
          · right
            rw [hrow_eq, hmk, hz]
            refine map_npDiv_zero (hrows _ (getD_mem hic [])) ?_
            rw [hsums (k : ℕ), hz]
          · left
            rw [hrow_eq, hmk, rationalSum_map_npDiv hz, hsums (k : ℕ),
              div_self (show ((cn.2.getD (k : ℕ) 0 : ℕ) : ℚ) ≠ 0 by exact_mod_cast hz)]

/-- C2 counterexample: on an alignment whose second column is all gaps,
the claim requires `readTargetFrequencies` to fail with a `DataError`;
instead the call completes normally — the counting pass records zero
observations at that position (`nEntries = [2, 0]`) and the division by
zero is masked to a row of NaN cells. -/
theorem claim_C2_counterexample :
    readTargetFrequencies [">a", "A-", ">b", "A-", ">c", "A-"]
      = .ok [NpVal.num 1 :: List.replicate 19 (NpVal.num 0), List.replicate 20 NpVal.nan]
    ∧ fastaCounts 2 (encodeLines [">a", "A-", ">b", "A-", ">c", "A-"])
      = .ok ([2 :: List.replicate 19 0, List.replicate 20 0], [2, 0]) := by
  constructor
  · with_unfolding_all decide
  · with_unfolding_all decide

/-- Witness for the amended C2 at a concrete alignment: the call
succeeds and the theorem applies to the first returned row. -/
theorem claim_C2_witness :
    readTargetFrequencies [">x", "AC", ">y", "-C", ">z", "AA"]
      = .ok [NpVal.num 1 :: List.replicate 19 (NpVal.num 0),
          NpVal.num 0 :: NpVal.num 1 :: List.replicate 18 (NpVal.num 0)]
    ∧ (rationalSum? (NpVal.num 1 :: List.replicate 19 (NpVal.num 0)) = some 1
        ∨ NpVal.num 1 :: List.replicate 19 (NpVal.num 0) = List.replicate 20 NpVal.nan) := by
  refine ⟨by with_unfolding_all decide, ?_⟩
  exact claim_C2_amended [">x", "AC", ">y", "-C", ">z", "AA"]
    [NpVal.num 1 :: List.replicate 19 (NpVal.num 0),
      NpVal.num 0 :: NpVal.num 1 :: List.replicate 18 (NpVal.num 0)]
    (by with_unfolding_all decide)
    (NpVal.num 1 :: List.replicate 19 (NpVal.num 0)) (by with_unfolding_all decide)

/-! ## Claim C7 -/

/-- C7 counterexample: on the alignment `"AC-D"`, `"AC-E"`, `"A-ED"`
the claim asserts position 3 (column index 2) carries frequencies
E = 0.5 and D = 0.5; in fact the reader returns a NaN cell there (the
only sequence with a residue at that column is the final entry, which
the reader never counts), in particular the E-cell (index 3) is not
0.5. -/
theorem claim_C7_counterexample :
    (readTargetFrequencies [">s1", "AC-D", ">s2", "AC-E", ">s3", "A-ED"]).toOption.map
        (fun M => (M.getD 2 []).getD 3 (NpVal.num 0)) = some NpVal.nan
    ∧ NpVal.nan ≠ NpVal.num (1 / 2) := by
  constructor
  · with_unfolding_all decide
  · with_unfolding_all decide

/-- C7 (amended): on the alignment `"AC-D"`, `"AC-E"`, `"A-ED"` over
positions 1-4, the profile built by the code counts only the flushed
sequences (the final entry `"A-ED"` is dropped): position 2 (column
index 1) gets frequency C = 1.0 with all other residues 0; position 3
(column index 2) has zero counted observations and is a row of NaN;
the frequencies D = 0.5, E = 0.5 appear at position 4 (column index
3); and position 1 is A = 1.0. -/
theorem claim_C7_amended :
    readTargetFrequencies [">s1", "AC-D", ">s2", "AC-E", ">s3", "A-ED"]
      = .ok [NpVal.num 1 :: List.replicate 19 (NpVal.num 0),
          NpVal.num 0 :: NpVal.num 1 :: List.replicate 18 (NpVal.num 0),
          List.replicate 20 NpVal.nan,
          NpVal.num 0 :: NpVal.num 0 :: NpVal.num (1 / 2) :: NpVal.num (1 / 2)
            :: List.replicate 16 (NpVal.num 0)] := by
  with_unfolding_all decide

/-! ## Claim C8 -/

theorem scanEntry_nonheader {ls : List (List Char)} (h : ∀ l ∈ ls, l.head? ≠ some '>') :
    scanEntry ls = .error .indexError := by
  induction ls with
  | nil => rfl
  | cons l ls ih =>
    unfold scanEntry
    rw [if_neg (h l (List.mem_cons_self _ _)),
      ih (fun x hx => h x (List.mem_cons_of_mem _ hx))]
    rfl

theorem scanEntry_append_ok {more : List (List Char)} :
    ∀ {ls : List (List Char)} {e : List Char},
      scanEntry ls = .ok e → scanEntry (ls ++ more) = .ok e := by
  intro ls
  induction ls with
  | nil =>
    intro e h
    cases h
  | cons l rest ih =>
    intro e h
    rw [List.cons_append]
    unfold scanEntry at h ⊢
    by_cases hh : l.head? = some '>'
    · rw [if_pos hh] at h ⊢
      exact h
    · rw [if_neg hh] at h ⊢
      cases hs : scanEntry rest with
      | error e' =>
        rw [hs] at h
        cases h
      | ok e' =>
        rw [hs] at h
        have he : e = l ++ e' := by
          have h' : Except.ok (l ++ e') = Except.ok e := h
          injection h' with h''
          exact h''.symm
        rw [ih hs, he]
        rfl

theorem scanEntry_append_nonheader {more : List (List Char)}
    (hmore : ∀ l ∈ more, l.head? ≠ some '>') :
    ∀ {ls : List (List Char)} {err : PyErr},
      scanEntry ls = .error err → scanEntry (ls ++ more) = .error err := by
  intro ls
  induction ls with
  | nil =>
    intro err h
    have herr : err = .indexError := by
      unfold scanEntry at h
      injection h with h'
      exact h'.symm
    rw [List.nil_append, herr]
    exact scanEntry_nonheader hmore
  | cons l rest ih =>
    intro err h
    rw [List.cons_append]
    unfold scanEntry at h ⊢
    by_cases hh : l.head? = some '>'
    · rw [if_pos hh] at h
      cases h
    · rw [if_neg hh] at h ⊢
      cases hs : scanEntry rest with
      | ok e' =>
        rw [hs] at h
        cases h
      | error e' =>
        rw [hs] at h
        have he : e' = err := by
          have h' : (Except.error e' : Except PyErr (List Char)) = .error err := h
          exact Except.error.inj h'
        rw [ih (he ▸ hs)]
        rfl

theorem lineStep_nonheader {nPos : ℕ} {st : FState} {l : List Char}
    (h : l.head? ≠ some '>') :
    lineStep nPos st l = .ok ⟨st.counts, st.nEntries, st.thisEntry ++ l⟩ := by
  unfold lineStep
  rw [if_neg h]

theorem efold_lineStep_nonheader (nPos : ℕ) :
    ∀ {ls : List (List Char)}, (∀ l ∈ ls, l.head? ≠ some '>') →
      ∀ st : FState, ∃ t, efold (lineStep nPos) st ls = .ok ⟨st.counts, st.nEntries, t⟩ := by
  intro ls
  induction ls with
  | nil =>
    intro _ st
    exact ⟨st.thisEntry, rfl⟩
  | cons l ls ih =>
    intro h st
    obtain ⟨t, ht⟩ := ih (fun x hx => h x (List.mem_cons_of_mem _ hx))
      ⟨st.counts, st.nEntries, st.thisEntry ++ l⟩
    refine ⟨t, ?_⟩
    rw [efold_cons, lineStep_nonheader (h l (List.mem_cons_self _ _))]
    exact ht

theorem fastaCounts_append {nPos : ℕ} {ls more : List (List Char)}
    (hmore : ∀ l ∈ more, l.head? ≠ some '>') :
    fastaCounts nPos (ls ++ more) = fastaCounts nPos ls := by
  unfold fastaCounts
  rw [efold_append]
  cases hf : efold (lineStep nPos)
      ⟨List.replicate nPos (List.replicate 20 0), List.replicate nPos 0, []⟩ ls with
  | error e => rfl
  | ok st =>
    obtain ⟨t, ht⟩ := efold_lineStep_nonheader nPos hmore st
    show Except.map (fun st => (st.counts, st.nEntries)) (efold (lineStep nPos) st more)
      = Except.map (fun st => (st.counts, st.nEntries)) (Except.ok st)
    rw [ht]
    rfl

/-- C8: the residues of a sequence entry are counted only when a later
header line flushes it, so the trailing entry of the file contributes
nothing: appending any non-header lines (in particular, the lines of
the file's last sequence entry) to a FASTA file leaves the result of
`readTargetFrequencies` — counts, denominators and frequencies —
completely unchanged. -/
theorem claim_C8 (lines extra : List String)
    (hextra : ∀ l ∈ extra, (l.data ++ ['\n']).head? ≠ some '>') :
    readTargetFrequencies (lines ++ extra) = readTargetFrequencies lines := by
  have hmore : ∀ l ∈ encodeLines extra, l.head? ≠ some '>' := by
    intro l hl
    obtain ⟨s, hs, rfl⟩ := List.mem_map.mp hl
    exact hextra s hs
  unfold readTargetFrequencies
  have henc : encodeLines (lines ++ extra) = encodeLines lines ++ encodeLines extra :=
    List.map_append _ _ _
  rw [henc]
  cases hE : encodeLines lines with
  | nil =>
    rw [List.nil_append]
    cases hX : encodeLines extra with
    | nil => rfl
    | cons x xs =>
      have hxs : ∀ l ∈ xs, l.head? ≠ some '>' := by
        intro l hl
        exact hmore l (hX ▸ List.mem_cons_of_mem _ hl)
      rw [readTFAux_cons_err x (scanEntry_nonheader hxs)]
      rfl
  | cons l0 rest =>
    rw [List.cons_append]
    cases hs : scanEntry rest with
    | error e =>
      rw [readTFAux_cons_err _ (scanEntry_append_nonheader hmore hs), readTFAux_cons_err _ hs]
    | ok entry =>
      rw [readTFAux_cons_ok _ (scanEntry_append_ok hs), readTFAux_cons_ok _ hs]
      by_cases hlen : entry.length < 2
      · rw [if_pos hlen, if_pos hlen]
      · rw [if_neg hlen, if_neg hlen]
        rw [← List.cons_append, fastaCounts_append hmore]

/-- Witness for C8 at a concrete file: appending the junk line `"ZZ"`
(which replaces the last entry's would-be data) leaves the result
unchanged. -/
theorem claim_C8_witness :
    (∀ l ∈ (["ZZ"] : List String), (l.data ++ ['\n']).head? ≠ some '>')
    ∧ readTargetFrequencies ([">a", "AB", ">b", "CD"] ++ ["ZZ"])
      = readTargetFrequencies [">a", "AB", ">b", "CD"] :=
  ⟨by decide, claim_C8 [">a", "AB", ">b", "CD"] ["ZZ"] (by decide)⟩

/-! ## Ingestion-step characterizations -/

theorem getOrErr_some {α : Type} (a : α) (e : PyErr) : getOrErr (some a) e = .ok a := rfl

theorem getOrErr_none {α : Type} (e : PyErr) : getOrErr (none : Option α) e = .error e := rfl

theorem bindE_ok {α β : Type} (a : α) (f : α → Except PyErr β) :
    (Except.ok a >>= f) = f a := rfl

theorem bindE_err {α β : Type} (e : PyErr) (f : α → Except PyErr β) :
    ((Except.error e : Except PyErr α) >>= f) = .error e := rfl

theorem mem_records_addMacro {m : Model} {mac : ℕ} {pos : ℤ} {e : List ℚ} {rec : ℕ × ℤ × List ℚ}
    (h : rec ∈ (m.addMacrostateData mac pos e).records) :
    rec ∈ m.records ∨ rec = (mac, pos, e) := by
  unfold Model.addMacrostateData at h
  rcases List.mem_append.mp h with h' | h'
  · exact Or.inl (List.mem_filter.mp h').1
  · simp only [List.mem_singleton] at h'
    exact Or.inr h'

theorem mem_records_addMicro {m : Model} {mac : ℕ} {pos : ℤ} {e : List ℚ} {rec : ℕ × ℤ × List ℚ}
    (h : rec ∈ (m.addMicrostateData mac pos e).records) :
    rec ∈ m.records ∨ rec = (mac, pos, e) := by
  unfold Model.addMicrostateData at h
  rcases List.mem_append.mp h with h' | h'
  · exact Or.inl h'
  · simp only [List.mem_singleton] at h'
    exact Or.inr h'

theorem mem_storeRecord {models : List (String × Model)} {ID : String} {upd : Model → Model}
    {fresh : Model} {km : String × Model} (h : km ∈ storeRecord models ID upd fresh) :
    km ∈ models ∨ (∃ m, (ID, m) ∈ models ∧ km = (ID, upd m)) ∨ km = (ID, upd fresh) := by
  unfold storeRecord at h
  split at h
  · obtain ⟨kv, hkv, hmap⟩ := List.mem_map.mp h
    by_cases hid : kv.1 = ID
    · right
      left
      refine ⟨kv.2, ?_, ?_⟩
      · rw [← hid]
        exact hkv
      · rw [← hmap, if_pos hid, hid]
    · left
      rw [← hmap, if_neg hid]
      exact hkv
  · rcases List.mem_append.mp h with h' | h'
    · exact Or.inl h'
    · right
      right
      simpa using h'

theorem storeRecord_keys (models : List (String × Model)) (ID : String) (upd : Model → Model)
    (fresh : Model) :
    (storeRecord models ID upd fresh).map Prod.fst
      = if (models.lookup ID).isSome then models.map Prod.fst
        else models.map Prod.fst ++ [ID] := by
  unfold storeRecord
  split
  · rw [List.map_map]
    refine List.map_congr_left ?_
    intro kv _
    by_cases hid : kv.1 = ID
    · simp [Function.comp, if_pos hid, hid]
    · simp [Function.comp, if_neg hid]
  · rw [List.map_append]
    rfl

theorem lookup_none_not_mem {models : List (String × Model)} {ID : String}
    (h : models.lookup ID = none) : ID ∉ models.map Prod.fst := by
  induction models with
  | nil => simp
  | cons kv rest ih =>
    rw [List.lookup_cons] at h
    intro hmem
    rcases List.mem_cons.mp hmem with h' | h'
    · rw [← h'] at h
      simp at h
    · split at h
      · cases h
      · exact ih h h'

theorem lookup_some_mem {models : List (String × Model)} {ID : String} {m : Model}
    (h : models.lookup ID = some m) : (ID, m) ∈ models := by
  induction models with
  | nil => cases h
  | cons kv rest ih =>
    rw [List.lookup_cons] at h
    split at h
    · rename_i heq
      injection h with h
      have hid : ID = kv.1 := by simpa using heq
      rw [hid, ← h]
      exact List.mem_cons_self _ _
    · exact List.mem_cons_of_mem _ (ih h)

theorem nodup_assoc_eq {models : List (String × Model)}
    (hnd : (models.map Prod.fst).Nodup) {km km' : String × Model}
    (h : km ∈ models) (h' : km' ∈ models) (hk : km.1 = km'.1) : km = km' := by
  induction models with
  | nil => cases h
  | cons kv rest ih =>
    rw [List.map_cons, List.nodup_cons] at hnd
    rcases List.mem_cons.mp h with h1 | h1 <;> rcases List.mem_cons.mp h' with h2 | h2
    · rw [h1, h2]
    · exfalso
      refine hnd.1 ?_
      have hh : kv.1 = km'.1 := by
        rw [← h1]
        exact hk
      rw [hh]
      exact List.mem_map.mpr ⟨km', h2, rfl⟩
    · exfalso
      refine hnd.1 ?_
      have hh : kv.1 = km.1 := by
        rw [← h2]
        exact hk.symm
      rw [hh]
      exact List.mem_map.mpr ⟨km, h1, rfl⟩
    · exact ih hnd.2 h1 h2

/-- Characterization of a successful `readData` loop iteration: the
three leading conversions succeeded, and the row was either skipped by
the window filter (models untouched) or fully parsed and stored. -/
theorem readDataStep_ok {m2i : List (String × ℕ)} {nPositions : ℕ} {st st' : RDState}
    {row : MacroRow} (h : readDataStep m2i nPositions st row = .ok st') :
    ∃ (mac : ℕ) (pos ens : ℤ),
      m2i.lookup row.macrostate = some mac ∧ pyInt row.position = some pos
        ∧ pyInt row.ensembleS = some ens
        ∧ ((pos < (if st.isFirstEntry then pos else st.minPosition)
              ∨ pos ≥ (if st.isFirstEntry then pos else st.minPosition) + (nPositions : ℤ))
            ∧ st' = ⟨st.models, false, if st.isFirstEntry then pos else st.minPosition⟩
          ∨ ¬(pos < (if st.isFirstEntry then pos else st.minPosition)
              ∨ pos ≥ (if st.isFirstEntry then pos else st.minPosition) + (nPositions : ℤ))
            ∧ ∃ (bt boltz : ℚ) (e : List ℚ),
                pyFloat row.backrubT = some bt ∧ parseBoltzmannT row.boltzmanT = .ok boltz
                ∧ energiesToArray row.energies = .ok e
                ∧ st' = ⟨storeRecord st.models
                    (calcParamsID (.pfloat bt) (.pint ens) (.pfloat boltz))
                    (fun m => m.addMacrostateData mac pos e)
                    ⟨ens, bt, boltz, nPositions,
                      if st.isFirstEntry then pos else st.minPosition, []⟩,
                  false, if st.isFirstEntry then pos else st.minPosition⟩) := by
  unfold readDataStep at h
  cases hmac : m2i.lookup row.macrostate with
  | none =>
    simp only [hmac, getOrErr_none, bindE_err] at h
    cases h
  | some mac =>
    simp only [hmac, getOrErr_some, bindE_ok] at h
    cases hpos : pyInt row.position with
    | none =>
      simp only [hpos, getOrErr_none, bindE_err] at h
      cases h
    | some pos =>
      simp only [hpos, getOrErr_some, bindE_ok] at h
      cases hens : pyInt row.ensembleS with
      | none =>
        simp only [hens, getOrErr_none, bindE_err] at h
        cases h
      | some ens =>
        simp only [hens, getOrErr_some, bindE_ok] at h
        refine ⟨mac, pos, ens, rfl, rfl, rfl, ?_⟩
        by_cases hfil : pos < (if st.isFirstEntry then pos else st.minPosition)
            ∨ pos ≥ (if st.isFirstEntry then pos else st.minPosition) + (nPositions : ℤ)
        · rw [if_pos hfil] at h
          injection h with h
          exact Or.inl ⟨hfil, h.symm⟩
        · rw [if_neg hfil] at h
          cases hbt : pyFloat row.backrubT with
          | none =>
            simp only [hbt, getOrErr_none, bindE_err] at h
            cases h
          | some bt =>
            simp only [hbt, getOrErr_some, bindE_ok] at h
            cases hbz : parseBoltzmannT row.boltzmanT with
            | error e =>
              simp only [hbz, bindE_err] at h
              cases h
            | ok boltz =>
              simp only [hbz, bindE_ok] at h
              cases he : energiesToArray row.energies with
              | error e =>
                simp only [he, bindE_err] at h
                cases h
              | ok e =>
                simp only [he, bindE_ok] at h
                injection h with h
                exact Or.inr ⟨hfil, bt, boltz, e, rfl, rfl, rfl, h.symm⟩

/-- Characterization of a successful `readMicrostateData` loop
iteration. -/
theorem readMicroStep_ok {m2i : List (String × ℕ)} {nPositions : ℕ} {st st' : RMState}
    {row : MicroRow} (h : readMicrostateDataStep m2i nPositions st row = .ok st') :
    ∃ pos : ℤ, pyInt row.position = some pos
      ∧ ((pos < st.minPosition ∨ pos ≥ st.minPosition + (nPositions : ℤ)) ∧ st' = st
        ∨ ¬(pos < st.minPosition ∨ pos ≥ st.minPosition + (nPositions : ℤ))
          ∧ ∃ (bt : ℚ) (mac : ℕ) (e : List ℚ),
              pyFloat row.backrubT = some bt ∧ m2i.lookup row.macrostate = some mac
              ∧ energiesToArray row.energies = .ok e
              ∧ st' = ⟨storeRecord st.models (calcParamsID (.pfloat bt) .pnone .pnone)
                  (fun m => m.addMicrostateData mac pos e)
                  ⟨0, bt, 0, nPositions, st.minPosition, []⟩,
                st.minPosition, if pos > st.maxPos then pos else st.maxPos,
                st.nPositionsOut⟩) := by
  unfold readMicrostateDataStep at h
  cases hpos : pyInt row.position with
  | none =>
    simp only [hpos, getOrErr_none, bindE_err] at h
    cases h
  | some pos =>
    simp only [hpos, getOrErr_some, bindE_ok] at h
    refine ⟨pos, rfl, ?_⟩
    by_cases hfil : pos < st.minPosition ∨ pos ≥ st.minPosition + (nPositions : ℤ)
    · rw [if_pos hfil] at h
      injection h with h
      exact Or.inl ⟨hfil, h.symm⟩
    · rw [if_neg hfil] at h
      cases hbt : pyFloat row.backrubT with
      | none =>
        simp only [hbt, getOrErr_none, bindE_err] at h
        cases h
      | some bt =>
        simp only [hbt, getOrErr_some, bindE_ok] at h
        cases hmac : m2i.lookup row.macrostate with
        | none =>
          simp only [hmac, getOrErr_none, bindE_err] at h
          cases h
        | some mac =>
          simp only [hmac, getOrErr_some, bindE_ok] at h
          cases he : energiesToArray row.energies with
          | error e =>
            simp only [he, bindE_err] at h
            cases h
          | ok e =>
            simp only [he, bindE_ok] at h
            injection h with h
            exact Or.inr ⟨hfil, bt, mac, e, rfl, rfl, rfl, h.symm⟩

/-! ## Window invariants of the two ingestors -/

theorem readData_window {m2i : List (String × ℕ)} {nPositions : ℕ} {rows : List MacroRow}
    {st : RDState} (hok : readData m2i nPositions rows = .ok st) :
    (st.isFirstEntry = true → st.models = []) ∧
    ∀ km ∈ st.models, ∀ rec ∈ km.2.records,
      st.minPosition ≤ rec.2.1 ∧ rec.2.1 < st.minPosition + (nPositions : ℤ) := by
  have hok' : efold (readDataStep m2i nPositions) ⟨[], true, 65535⟩ rows = .ok st := hok
  refine efold_ok_inv (fun t => (t.isFirstEntry = true → t.models = []) ∧
      ∀ km ∈ t.models, ∀ rec ∈ km.2.records,
        t.minPosition ≤ rec.2.1 ∧ rec.2.1 < t.minPosition + (nPositions : ℤ))
    rows ⟨[], true, 65535⟩ st ?_ hok' ⟨fun _ => rfl, by simp⟩
  intro t row _ hP t' ht'
  obtain ⟨hPfirst, hPwin⟩ := hP
  obtain ⟨mac, pos, ens, _, _, _, hcase⟩ := readDataStep_ok ht'
  have hold : ∀ km ∈ t.models, ∀ rec ∈ km.2.records,
      (if t.isFirstEntry = true then pos else t.minPosition) ≤ rec.2.1
        ∧ rec.2.1 < (if t.isFirstEntry = true then pos else t.minPosition) + (nPositions : ℤ) := by
    by_cases hfe : t.isFirstEntry = true
    · intro km hkm
      rw [hPfirst hfe] at hkm
      cases hkm
    · rw [if_neg hfe]
      exact hPwin
  rcases hcase with ⟨_, rfl⟩ | ⟨hfil, bt, boltz, e, _, _, _, rfl⟩
  · exact ⟨fun hco => absurd (show false = true from hco) (by decide), hold⟩
  · refine ⟨fun hco => absurd (show false = true from hco) (by decide), ?_⟩
    intro km hkm rec hrec
    have hwin_new : (if t.isFirstEntry = true then pos else t.minPosition) ≤ pos
        ∧ pos < (if t.isFirstEntry = true then pos else t.minPosition) + (nPositions : ℤ) := by
      constructor <;> omega
    replace hkm : km ∈ storeRecord t.models
        (calcParamsID (.pfloat bt) (.pint ens) (.pfloat boltz))
        (fun m => m.addMacrostateData mac pos e)
        ⟨ens, bt, boltz, nPositions, if t.isFirstEntry = true then pos else t.minPosition, []⟩ :=
      hkm
    rcases mem_storeRecord hkm with hk1 | ⟨m, hm, rfl⟩ | rfl
    · exact hold km hk1 rec hrec
    · rcases mem_records_addMacro hrec with hr | rfl
      · exact hold _ hm rec hr
      · exact hwin_new
    · rcases mem_records_addMacro hrec with hr | rfl
      · exact absurd hr (List.not_mem_nil _)
      · exact hwin_new

theorem readMicro_inv {m2i : List (String × ℕ)} {nPositions : ℕ} {contig : Bool}
    {minPosition : ℤ} {rows : List MicroRow} {st : RMState}
    (hok : readMicrostateData m2i nPositions contig minPosition rows = .ok st) :
    st.minPosition = minPosition
    ∧ (∀ km ∈ st.models, ∃ b : ℚ, km.1 = calcParamsID (.pfloat b) .pnone .pnone)
    ∧ (st.models.map Prod.fst).Nodup
    ∧ ∀ km ∈ st.models, ∀ rec ∈ km.2.records,
        minPosition ≤ rec.2.1 ∧ rec.2.1 < minPosition + (nPositions : ℤ) := by
  unfold readMicrostateData at hok
  cases hf : efold (readMicrostateDataStep m2i nPositions)
      ⟨[], minPosition, 0, (nPositions : ℤ)⟩ rows with
  | error e =>
    rw [hf] at hok
    simp only [bindE_err] at hok
    cases hok
  | ok st0 =>
    rw [hf] at hok
    simp only [bindE_ok] at hok
    have hP : st0.minPosition = minPosition
        ∧ (∀ km ∈ st0.models, ∃ b : ℚ, km.1 = calcParamsID (.pfloat b) .pnone .pnone)
        ∧ (st0.models.map Prod.fst).Nodup
        ∧ ∀ km ∈ st0.models, ∀ rec ∈ km.2.records,
            minPosition ≤ rec.2.1 ∧ rec.2.1 < minPosition + (nPositions : ℤ) := by
      refine efold_ok_inv (fun t => t.minPosition = minPosition
          ∧ (∀ km ∈ t.models, ∃ b : ℚ, km.1 = calcParamsID (.pfloat b) .pnone .pnone)
          ∧ (t.models.map Prod.fst).Nodup
          ∧ ∀ km ∈ t.models, ∀ rec ∈ km.2.records,
              minPosition ≤ rec.2.1 ∧ rec.2.1 < minPosition + (nPositions : ℤ))
        rows ⟨[], minPosition, 0, (nPositions : ℤ)⟩ st0 ?_ hf ⟨rfl, by simp, by simp, by simp⟩
      intro t row _ hPt t' ht'
      obtain ⟨hPmin, hPform, hPnd, hPwin⟩ := hPt
      obtain ⟨pos, _, hcase⟩ := readMicroStep_ok ht'
      rcases hcase with ⟨_, rfl⟩ | ⟨hfil, bt, mac, e, _, _, _, rfl⟩
      · exact ⟨hPmin, hPform, hPnd, hPwin⟩
      · refine ⟨hPmin, ?_, ?_, ?_⟩
        · intro km hkm
          replace hkm : km ∈ storeRecord t.models (calcParamsID (.pfloat bt) .pnone .pnone)
              (fun m => m.addMicrostateData mac pos e)
              ⟨0, bt, 0, nPositions, t.minPosition, []⟩ := hkm
          rcases mem_storeRecord hkm with hk1 | ⟨m, hm, rfl⟩ | rfl
          · exact hPform km hk1
          · exact ⟨bt, rfl⟩
          · exact ⟨bt, rfl⟩
        · show ((storeRecord t.models (calcParamsID (.pfloat bt) .pnone .pnone)
              (fun m => m.addMicrostateData mac pos e)
              ⟨0, bt, 0, nPositions, t.minPosition, []⟩).map Prod.fst).Nodup
          rw [storeRecord_keys]
          split
          · exact hPnd
          · rename_i hnone
            have hnone' : t.models.lookup (calcParamsID (.pfloat bt) .pnone .pnone) = none :=
              Option.not_isSome_iff_eq_none.mp hnone
            refine List.Nodup.append hPnd (by simp) ?_
            intro x hx hx'
            simp only [List.mem_singleton] at hx'
            exact lookup_none_not_mem hnone' (hx' ▸ hx)
        · intro km hkm rec hrec
          have hwin_new : minPosition ≤ pos ∧ pos < minPosition + (nPositions : ℤ) := by
            rw [← hPmin]
            constructor <;> omega
          replace hkm : km ∈ storeRecord t.models (calcParamsID (.pfloat bt) .pnone .pnone)
              (fun m => m.addMicrostateData mac pos e)
              ⟨0, bt, 0, nPositions, t.minPosition, []⟩ := hkm
          rcases mem_storeRecord hkm with hk1 | ⟨m, hm, rfl⟩ | rfl
          · exact hPwin km hk1 rec hrec
          · rcases mem_records_addMicro hrec with hr | rfl
            · exact hPwin _ hm rec hr
            · exact hwin_new
          · rcases mem_records_addMicro hrec with hr | rfl
            · exact absurd hr (List.not_mem_nil _)
            · exact hwin_new
    cases contig with
    | false =>
      simp only [if_neg (by decide : ¬(false = true))] at hok
      injection hok with hok
      rw [← hok]
      exact hP
    | true =>
      simp only [if_pos (rfl : true = true)] at hok
      injection hok with hok
      rw [← hok]
      exact hP

/-! ## Claim C4 -/

/-- C4: in both ingestors, an energy record whose position falls
outside the half-open window `[minPosition, minPosition + nPositions)`
is skipped — the loop state is returned unchanged, with no error and
no resizing — and consequently every record stored in any cached model
after a successful ingestion has its position inside that window. -/
theorem claim_C4 (m2i : List (String × ℕ)) (nPositions : ℕ) :
    (∀ (rows : List MacroRow) (st : RDState), readData m2i nPositions rows = .ok st →
      ∀ km ∈ st.models, ∀ rec ∈ km.2.records,
        st.minPosition ≤ rec.2.1 ∧ rec.2.1 < st.minPosition + (nPositions : ℤ))
    ∧ (∀ (contig : Bool) (minPosition : ℤ) (rows : List MicroRow) (st : RMState),
        readMicrostateData m2i nPositions contig minPosition rows = .ok st →
        ∀ km ∈ st.models, ∀ rec ∈ km.2.records,
          minPosition ≤ rec.2.1 ∧ rec.2.1 < minPosition + (nPositions : ℤ))
    ∧ (∀ (st : RDState) (row : MacroRow) (mac : ℕ) (pos ens : ℤ),
        m2i.lookup row.macrostate = some mac → pyInt row.position = some pos →
        pyInt row.ensembleS = some ens → st.isFirstEntry = false →
        (pos < st.minPosition ∨ pos ≥ st.minPosition + (nPositions : ℤ)) →
        readDataStep m2i nPositions st row = .ok ⟨st.models, false, st.minPosition⟩)
    ∧ (∀ (st : RMState) (row : MicroRow) (pos : ℤ),
        pyInt row.position = some pos →
        (pos < st.minPosition ∨ pos ≥ st.minPosition + (nPositions : ℤ)) →
        readMicrostateDataStep m2i nPositions st row = .ok st) := by
  refine ⟨?_, ?_, ?_, ?_⟩
  · intro rows st hok
    exact (readData_window hok).2
  · intro contig minPosition rows st hok
    exact (readMicro_inv hok).2.2.2
  · intro st row mac pos ens hmac hpos hens hfe hfil
    unfold readDataStep
    simp only [hmac, hpos, hens, getOrErr_some, bindE_ok]
    rw [if_neg (show ¬(st.isFirstEntry = true) by rw [hfe]; decide)]
    rw [if_pos hfil]
  · intro st row pos hpos hfil
    unfold readMicrostateDataStep
    simp only [hpos, getOrErr_some, bindE_ok]
    rw [if_pos hfil]

/-- Witness for C4: a two-row macrostate table whose second row's
position 9 falls outside the window `[5, 6)`; only the first record is
stored and the stored record's position satisfies the window bounds. -/
theorem claim_C4_witness :
    readData [("M", 0)] 1
        [⟨"M", "5", "2", "min", "5", zeroEnergies⟩, ⟨"M", "5", "2", "min", "9", zeroEnergies⟩]
      = .ok ⟨[("5.1 2 0.1",
          Model.addMacrostateData ⟨2, 5, 0, 1, 5, []⟩ 0 5 (List.replicate 20 0))], false, 5⟩
    ∧ ((5 : ℤ) ≤ (5 : ℤ) ∧ (5 : ℤ) < 5 + ((1 : ℕ) : ℤ)) := by
  have hok : readData [("M", 0)] 1
      [⟨"M", "5", "2", "min", "5", zeroEnergies⟩, ⟨"M", "5", "2", "min", "9", zeroEnergies⟩]
      = .ok ⟨[("5.1 2 0.1",
          Model.addMacrostateData ⟨2, 5, 0, 1, 5, []⟩ 0 5 (List.replicate 20 0))], false, 5⟩ := by
    with_unfolding_all decide
  refine ⟨hok, ?_⟩
  exact (claim_C4 [("M", 0)] 1).1 _ _ hok
    ("5.1 2 0.1", Model.addMacrostateData ⟨2, 5, 0, 1, 5, []⟩ 0 5 (List.replicate 20 0))
    (by with_unfolding_all decide)
    (0, 5, List.replicate 20 0) (by with_unfolding_all decide)

/-! ## Claim C5 -/

/-- C5: in `readData`, `minPosition` becomes the parsed position of
the very first data record and is never lowered afterwards: after a
successful load of any non-empty table, `minPosition` equals the first
record's position, and every stored record's position is at least that
value — a later record with a smaller position is dropped by the
window filter rather than retroactively reconciled. -/
theorem claim_C5 (m2i : List (String × ℕ)) (nPositions : ℕ) (r : MacroRow)
    (rest : List MacroRow) (st : RDState)
    (hok : readData m2i nPositions (r :: rest) = .ok st) :
    ∃ p : ℤ, pyInt r.position = some p ∧ st.minPosition = p
      ∧ ∀ km ∈ st.models, ∀ rec ∈ km.2.records, p ≤ rec.2.1 := by
  have hok0 := hok
  unfold readData at hok
  rw [efold_cons] at hok
  cases h1 : readDataStep m2i nPositions ⟨[], true, 65535⟩ r with
  | error e =>
    rw [h1] at hok
    cases hok
  | ok st1 =>
    rw [h1] at hok
    obtain ⟨mac, pos, ens, _, hpos, _, hcase⟩ := readDataStep_ok h1
    have hst1 : st1.minPosition = pos ∧ st1.isFirstEntry = false := by
      rcases hcase with ⟨_, rfl⟩ | ⟨_, bt, boltz, e, _, _, _, rfl⟩ <;> exact ⟨rfl, rfl⟩
    have hpres : st.minPosition = st1.minPosition ∧ st.isFirstEntry = false := by
      refine efold_ok_inv
        (fun t => t.minPosition = st1.minPosition ∧ t.isFirstEntry = false)
        rest st1 st ?_ hok ⟨rfl, hst1.2⟩
      intro t row _ hPt t' ht'
      obtain ⟨pm, pf⟩ := hPt
      obtain ⟨mac', pos', ens', _, _, _, hcase'⟩ := readDataStep_ok ht'
      have hmin : (if t.isFirstEntry = true then pos' else t.minPosition) = t.minPosition := by
        rw [if_neg (show ¬(t.isFirstEntry = true) by rw [pf]; decide)]
      have hfields : t'.minPosition = (if t.isFirstEntry = true then pos' else t.minPosition)
          ∧ t'.isFirstEntry = false := by
        rcases hcase' with ⟨_, rfl⟩ | ⟨_, bt, boltz, e, _, _, _, rfl⟩ <;> exact ⟨rfl, rfl⟩
      refine ⟨?_, hfields.2⟩
      rw [hfields.1, hmin]
      exact pm
    have hminp : st.minPosition = pos := by
      rw [hpres.1, hst1.1]
    refine ⟨pos, hpos, hminp, ?_⟩
    intro km hkm rec hrec
    have hw := (readData_window hok0).2 km hkm rec hrec
    rw [← hminp]
    exact hw.1

/-- Witness for C5 at a concrete single-row table with first position
7. -/
theorem claim_C5_witness :
    readData [("M", 0)] 1 [⟨"M", "5", "2", "min", "7", zeroEnergies⟩]
      = .ok ⟨[("5.1 2 0.1",
          Model.addMacrostateData ⟨2, 5, 0, 1, 7, []⟩ 0 7 (List.replicate 20 0))], false, 7⟩
    ∧ ∃ p : ℤ, pyInt "7" = some p
        ∧ (⟨[("5.1 2 0.1",
            Model.addMacrostateData ⟨2, 5, 0, 1, 7, []⟩ 0 7 (List.replicate 20 0))], false, 7⟩
              : RDState).minPosition = p
        ∧ ∀ km ∈ (⟨[("5.1 2 0.1",
            Model.addMacrostateData ⟨2, 5, 0, 1, 7, []⟩ 0 7 (List.replicate 20 0))], false, 7⟩
              : RDState).models, ∀ rec ∈ km.2.records, p ≤ rec.2.1 := by
  have hok : readData [("M", 0)] 1 [⟨"M", "5", "2", "min", "7", zeroEnergies⟩]
      = .ok ⟨[("5.1 2 0.1",
          Model.addMacrostateData ⟨2, 5, 0, 1, 7, []⟩ 0 7 (List.replicate 20 0))], false, 7⟩ := by
    with_unfolding_all decide
  exact ⟨hok, claim_C5 [("M", 0)] 1 ⟨"M", "5", "2", "min", "7", zeroEnergies⟩ [] _ hok⟩

/-! ## Claim C10 -/

/-- C10: `readMicrostateData` keys every created model under the
Parameter ID computed from `(backrub temperature, None, None)`: after a
successful microstate load every cache key has this form, keys are
pairwise distinct (so all rows sharing a backrub temperature are routed
into the single model under that key), and `getModelByParams` can find
a model only when called with `None` for both the ensemble-size and
Boltzmann-temperature arguments. -/
theorem claim_C10 (m2i : List (String × ℕ)) (nPositions : ℕ) (contig : Bool)
    (minPosition : ℤ) (rows : List MicroRow) (st : RMState)
    (hok : readMicrostateData m2i nPositions contig minPosition rows = .ok st) :
    (∀ km ∈ st.models, ∃ b : ℚ, km.1 = calcParamsID (.pfloat b) .pnone .pnone)
    ∧ (∀ km ∈ st.models, ∀ km' ∈ st.models, km.1 = km'.1 → km = km')
    ∧ (∀ (p1 p2 p3 : PyParam) (m : Model),
        (getModelByParams st.models p1 p2 p3).1 = .ok m → p2 = .pnone ∧ p3 = .pnone) := by
  obtain ⟨_, hform, hnd, _⟩ := readMicro_inv hok
  refine ⟨hform, fun km hkm km' hkm' hk => nodup_assoc_eq hnd hkm hkm' hk, ?_⟩
  intro p1 p2 p3 m hm
  have hlk : st.models.lookup (calcParamsID p1 p2 p3) = some m := by
    unfold getModelByParams at hm
    cases hl : st.models.lookup (calcParamsID p1 p2 p3) with
    | none =>
      simp only [hl, getOrErr_none] at hm
      cases hm
    | some m' =>
      simp only [hl, getOrErr_some] at hm
      injection hm with hm
      rw [hm]
  obtain ⟨b, hb⟩ := hform _ (lookup_some_mem hlk)
  obtain ⟨_, h2, h3⟩ := calcParamsID_inj hb
  exact ⟨h2, h3⟩

/-- Witness for C10 at a concrete one-row microstate table: the load
succeeds and the single cache key has the `(backrub, None, None)`
form. -/
theorem claim_C10_witness :
    readMicrostateData [("M", 0)] 1 false 5 [⟨"M", "5", "5", "bb", zeroEnergies⟩]
      = .ok ⟨[("5.1 None None",
          Model.addMicrostateData ⟨0, 5, 0, 1, 5, []⟩ 0 5 (List.replicate 20 0))], 5, 5, 1⟩
    ∧ ∃ b : ℚ, ("5.1 None None",
        Model.addMicrostateData ⟨0, 5, 0, 1, 5, []⟩ 0 5 (List.replicate 20 0)).1
      = calcParamsID (.pfloat b) .pnone .pnone := by
  have hok : readMicrostateData [("M", 0)] 1 false 5 [⟨"M", "5", "5", "bb", zeroEnergies⟩]
      = .ok ⟨[("5.1 None None",
          Model.addMicrostateData ⟨0, 5, 0, 1, 5, []⟩ 0 5 (List.replicate 20 0))], 5, 5, 1⟩ := by
    with_unfolding_all decide
  refine ⟨hok, ?_⟩
  exact (claim_C10 [("M", 0)] 1 false 5 _ _ hok).1
    ("5.1 None None", Model.addMicrostateData ⟨0, 5, 0, 1, 5, []⟩ 0 5 (List.replicate 20 0))
    (by with_unfolding_all decide)

/-! ## Claim C6 -/

/-- C6: in macrostate ingestion, a Boltzmann-temperature field equal to
the text `"mean"` is interpreted as the sentinel −1.0 and `"min"` as
the sentinel 0.0 in the stored model; any other field text that does
not parse as a real number makes the whole ingestion fail with the
conversion error (`float()` raises `ValueError`, which identifies the
offending value and aborts the load — no line is silently dropped).
The row is otherwise well-formed and in-window (`1 ≤ nPositions`; the
earlier conversions succeed), since those fields are processed before
the Boltzmann field. -/
theorem claim_C6 (m2i : List (String × ℕ)) (nPositions : ℕ) (r : MacroRow)
    (mac : ℕ) (pos ens : ℤ) (bt : ℚ) (e : List ℚ)
    (hmac : m2i.lookup r.macrostate = some mac)
    (hpos : pyInt r.position = some pos)
    (hens : pyInt r.ensembleS = some ens)
    (hbt : pyFloat r.backrubT = some bt)
    (he : energiesToArray r.energies = .ok e)
    (hnp : 1 ≤ nPositions) :
    (r.boltzmanT = "mean" →
      readData m2i nPositions [r]
        = .ok ⟨[(calcParamsID (.pfloat bt) (.pint ens) (.pfloat (-1)),
            Model.addMacrostateData ⟨ens, bt, -1, nPositions, pos, []⟩ mac pos e)], false, pos⟩
        ∧ ∀ km ∈ [(calcParamsID (.pfloat bt) (.pint ens) (.pfloat (-1)),
            Model.addMacrostateData ⟨ens, bt, -1, nPositions, pos, []⟩ mac pos e)],
            (km : String × Model).2.boltzmannTemp = -1)
    ∧ (r.boltzmanT = "min" →
      readData m2i nPositions [r]
        = .ok ⟨[(calcParamsID (.pfloat bt) (.pint ens) (.pfloat 0),
            Model.addMacrostateData ⟨ens, bt, 0, nPositions, pos, []⟩ mac pos e)], false, pos⟩
        ∧ ∀ km ∈ [(calcParamsID (.pfloat bt) (.pint ens) (.pfloat 0),
            Model.addMacrostateData ⟨ens, bt, 0, nPositions, pos, []⟩ mac pos e)],
            (km : String × Model).2.boltzmannTemp = 0)
    ∧ (r.boltzmanT ≠ "min" → r.boltzmanT ≠ "mean" → pyFloat r.boltzmanT = none →
      readData m2i nPositions [r] = .error .valueError) := by
  have hok_run : ∀ bz : ℚ, parseBoltzmannT r.boltzmanT = .ok bz →
      readData m2i nPositions [r]
        = .ok ⟨[(calcParamsID (.pfloat bt) (.pint ens) (.pfloat bz),
            Model.addMacrostateData ⟨ens, bt, bz, nPositions, pos, []⟩ mac pos e)], false, pos⟩ := by
    intro bz hbz
    have hstep : readDataStep m2i nPositions ⟨[], true, 65535⟩ r
        = .ok ⟨[(calcParamsID (.pfloat bt) (.pint ens) (.pfloat bz),
            Model.addMacrostateData ⟨ens, bt, bz, nPositions, pos, []⟩ mac pos e)], false, pos⟩ := by
      unfold readDataStep
      simp only [hmac, hpos, hens, getOrErr_some, bindE_ok, if_true]
      rw [if_neg (show ¬(pos < pos ∨ pos ≥ pos + (nPositions : ℤ)) by omega)]
      simp only [hbt, hbz, he, getOrErr_some, bindE_ok]
      rfl
    unfold readData
    rw [efold_cons, hstep]
    rfl
  have herr_run : parseBoltzmannT r.boltzmanT = .error .valueError →
      readData m2i nPositions [r] = .error .valueError := by
    intro hbz
    have hstep : readDataStep m2i nPositions ⟨[], true, 65535⟩ r = .error .valueError := by
      unfold readDataStep
      simp only [hmac, hpos, hens, getOrErr_some, bindE_ok, if_true]
      rw [if_neg (show ¬(pos < pos ∨ pos ≥ pos + (nPositions : ℤ)) by omega)]
      simp only [hbt, hbz, getOrErr_some, bindE_ok, bindE_err]
    unfold readData
    rw [efold_cons, hstep]
  refine ⟨?_, ?_, ?_⟩
  · intro hmean
    have hbz : parseBoltzmannT r.boltzmanT = .ok (-1) := by
      unfold parseBoltzmannT
      rw [hmean]
      rfl
    refine ⟨hok_run (-1) hbz, ?_⟩
    intro km hkm
    rcases List.mem_singleton.mp hkm with rfl
    rfl
  · intro hmin
    have hbz : parseBoltzmannT r.boltzmanT = .ok 0 := by
      unfold parseBoltzmannT
      rw [hmin]
      rfl
    refine ⟨hok_run 0 hbz, ?_⟩
    intro km hkm
    rcases List.mem_singleton.mp hkm with rfl
    rfl
  · intro hmin hmean hfl
    have hbz : parseBoltzmannT r.boltzmanT = .error .valueError := by
      unfold parseBoltzmannT
      rw [if_neg hmin, if_neg hmean, hfl]
      rfl
    exact herr_run hbz

/-- Witness for C6 at a concrete row whose Boltzmann field is the text
`"mean"`: the load succeeds and the stored model's Boltzmann
temperature is the sentinel −1. -/
theorem claim_C6_witness :
    (⟨"M", "5", "2", "mean", "5", zeroEnergies⟩ : MacroRow).boltzmanT = "mean"
    ∧ readData [("M", 0)] 1 [⟨"M", "5", "2", "mean", "5", zeroEnergies⟩]
        = .ok ⟨[(calcParamsID (.pfloat 5) (.pint 2) (.pfloat (-1)),
            Model.addMacrostateData ⟨2, 5, -1, 1, 5, []⟩ 0 5 (List.replicate 20 0))], false, 5⟩
    ∧ ∀ km ∈ [(calcParamsID (.pfloat 5) (.pint 2) (.pfloat (-1)),
          Model.addMacrostateData ⟨2, 5, -1, 1, 5, []⟩ 0 5 (List.replicate 20 0))],
        (km : String × Model).2.boltzmannTemp = -1 := by
  have h := (claim_C6 [("M", 0)] 1 ⟨"M", "5", "2", "mean", "5", zeroEnergies⟩ 0 5 2 5
    (List.replicate 20 0) rfl (by with_unfolding_all decide) (by with_unfolding_all decide)
    (by with_unfolding_all decide) (by with_unfolding_all decide) (by decide)).1 rfl
  exact ⟨rfl, h.1, h.2⟩

end MSD
